import Mathlib

/-! Matrix product kernels of `MatrixProduct.cpp`.

A shallow embedding of the four matrix product kernels
(`matrixProductNaive`, `matrixProductSmartNoVec`, `matrixProductSmartVec`,
`matrixProductSmartParallel`) and of the matrix container they work on.

* The element type is any type with a constant `0`, an addition and a
  multiplication; no law is assumed of them unless a theorem says so.
* A matrix is its row count, its column count and its row-major storage.
* `operator[]` and the element access through the pointer it returns are
  partial: they return `none` outside the documented index range, so a kernel
  is a function into `Option`.
* A `for` loop with a `size_t` counter `0 .. n-1` is a monadic left fold over
  `List.range n`.
* The two loops of `matrixProductSmartParallel` count with a 32-bit `int`; they are
  embedded with the conversion of the counter to `size_t`, an explicit outcome for the
  overflow of the counter, and fuel.
-/

namespace MatrixProduct

/-! ## The matrix container -/

/-- Modelled from the spec: the dense matrix container of `matrix.h`, which is
included by `MatrixProduct.cpp` but whose text is not part of the sources. It has
a row count, a column count and a backing storage of `rows * cols` elements in
row-major order; the storage length is an invariant of the type. -/
structure matrix (α : Type) where
  rows : Nat
  cols : Nat
  data : List α
  size_eq : data.length = rows * cols
  deriving DecidableEq

/-- Modelled from the spec: `operator[] (row)`, which "returns a pointer on the
first element in row i". The pointer is the linear offset `i * cols` of that
element; the access is valid only for `i < rows`. -/
def matrix.row {α : Type} (m : matrix α) (i : Nat) : Option Nat :=
  if i < m.rows then some (i * m.cols) else none

/-- Modelled from the spec: reading `p[j]` through a row pointer `p` of the matrix
`m`; valid only for `j < cols` and inside the storage. -/
def matrix.read {α : Type} (m : matrix α) (p j : Nat) : Option α :=
  if j < m.cols then m.data[p + j]? else none

/-- Modelled from the spec: writing `p[j] = v` through a row pointer `p` of the
matrix `m`; valid only for `j < cols` and inside the storage. The dimensions never
change. -/
def matrix.write {α : Type} (m : matrix α) (p j : Nat) (v : α) : Option (matrix α) :=
  if j < m.cols ∧ p + j < m.data.length then
    some ⟨m.rows, m.cols, m.data.set (p + j) v, by rw [List.length_set]; exact m.size_eq⟩
  else none

/-- The element stored at position `(i, j)`, that is at offset `i * cols + j`
(`0` outside the storage); used to state results. -/
def matrix.elem {α : Type} [Zero α] (m : matrix α) (i j : Nat) : α :=
  (m.data[i * m.cols + j]?).getD 0

/-! ## Loops -/

/-- Runs `body` once for each index of `order`, in the order of the list, passing
the state along and stopping at the first failure. -/
def forEach {σ : Type} (order : List Nat) (body : Nat → σ → Option σ) (s : σ) : Option σ :=
  order.foldlM (fun s i => body i s) s

/-- The loop `for (size_t i = 0; i < n; ++i) body`. -/
def forLoop {σ : Type} (n : Nat) (body : Nat → σ → Option σ) (s : σ) : Option σ :=
  forEach (List.range n) body s

/-! ## The kernels -/

/-- Embedding of `matrixProductNaive` (`MatrixProduct.cpp`, lines 38-66). -/
def matrixProductNaive {α : Type} [Zero α] [Add α] [Mul α]
    (a b c : matrix α) : Option (matrix α) :=
  let rows := a.rows
  let cols := b.cols
  let n := a.cols
  forLoop rows (fun i c => do
    let ai ← a.row i
    let _ci ← c.row i
    forLoop cols (fun j c => do
      let res ← forLoop n (fun k res => do
        let aik ← a.read ai k
        let bk ← b.row k
        let bkj ← b.read bk j
        pure (res + aik * bkj)) (0 : α)
      let ci ← c.row i
      c.write ci j res) c) c

/-- The dot product loop of `matrixProductNaive` (`MatrixProduct.cpp`, lines 55-61)
for the row pointer `ai` and the column `j`. -/
def naiveDot {α : Type} [Zero α] [Add α] [Mul α] (a b : matrix α) (ai j : Nat) : Option α :=
  forLoop a.cols (fun k res => do
    let aik ← a.read ai k
    let bk ← b.row k
    let bkj ← b.read bk j
    pure (res + aik * bkj)) (0 : α)

/-- The body of the outermost loop of `matrixProductNaive` (`MatrixProduct.cpp`,
lines 47-65) for the row index `i`. -/
def naiveRowBody {α : Type} [Zero α] [Add α] [Mul α] (a b : matrix α) (i : Nat)
    (c : matrix α) : Option (matrix α) := do
  let ai ← a.row i
  let _ci ← c.row i
  forLoop b.cols (fun j c => do
    let res ← naiveDot a b ai j
    let ci ← c.row i
    c.write ci j res) c

/-- Embedding of `matrixProductSmartNoVec` (`MatrixProduct.cpp`, lines 70-110). -/
def matrixProductSmartNoVec {α : Type} [Zero α] [Add α] [Mul α]
    (a b c : matrix α) : Option (matrix α) := do
  let rows := a.rows
  let cols := b.cols
  let n := a.cols
  let c ← forLoop rows (fun i c => do
    let ci ← c.row i
    forLoop cols (fun j c => c.write ci j 0) c) c
  forLoop rows (fun i c => do
    let ai ← a.row i
    let ci ← c.row i
    forLoop n (fun k c => do
      let bk ← b.row k
      let aik ← a.read ai k
      forLoop cols (fun j c => do
        let cij ← c.read ci j
        let bkj ← b.read bk j
        c.write ci j (cij + aik * bkj)) c) c) c

/-- Embedding of `matrixProductSmartVec` (`MatrixProduct.cpp`, lines 113-147). -/
def matrixProductSmartVec {α : Type} [Zero α] [Add α] [Mul α]
    (a b c : matrix α) : Option (matrix α) := do
  let rows := a.rows
  let cols := b.cols
  let n := a.cols
  let c ← forLoop rows (fun i c => do
    let ci ← c.row i
    forLoop cols (fun j c => c.write ci j 0) c) c
  forLoop rows (fun i c => do
    let ai ← a.row i
    let ci ← c.row i
    forLoop n (fun k c => do
      let bk ← b.row k
      let aik ← a.read ai k
      forLoop cols (fun j c => do
        let cij ← c.read ci j
        let bkj ← b.read bk j
        c.write ci j (cij + aik * bkj)) c) c) c

/-- The body of the first loop of `matrixProductSmartParallel`
(`MatrixProduct.cpp`, lines 158-164) for the row index `i`. -/
def parallelZeroBody {α : Type} [Zero α] (cols : Nat) (i : Nat) (c : matrix α) :
    Option (matrix α) := do
  let ci ← c.row i
  forLoop cols (fun j c => c.write ci j 0) c

/-- The body of the loop under `#pragma omp parallel for` in
`matrixProductSmartParallel` (`MatrixProduct.cpp`, lines 176-190) for the row
index `i`. -/
def parallelRowBody {α : Type} [Add α] [Mul α] (a b : matrix α) (i : Nat) (c : matrix α) :
    Option (matrix α) := do
  let cols := b.cols
  let n := a.cols
  let ai ← a.row i
  let ci ← c.row i
  forLoop n (fun k c => do
    let bk ← b.row k
    let aik ← a.read ai k
    forLoop cols (fun j c => do
      let cij ← c.read ci j
      let bkj ← b.read bk j
      c.write ci j (cij + aik * bkj)) c) c

/-- The ways in which a loop with an `int` counter can end. -/
inductive IntLoopResult (σ : Type) where
  /-- The condition `i < rows` became false with the counter and the state given. -/
  | finished (counter : Int) (state : σ)
  /-- An iteration of the body failed with an out-of-range access. -/
  | bodyFailed
  /-- The increment `++i` would leave the range of a 32-bit `int`. -/
  | overflow
  /-- The bound on the number of evaluations of the loop condition was reached. -/
  | outOfFuel
  deriving DecidableEq

/-- The value of the `int` `i` after conversion to a `size_t` of `w` bits, as it
happens in the comparison `i < rows` and in the argument of `operator[]`. -/
def toSizeT (w : Nat) (i : Int) : Nat := (i % 2 ^ w).toNat

/-- The loop `for (int i = ...; i < rows; ++i) body` of `matrixProductSmartParallel`
(`MatrixProduct.cpp`, lines 157 and 175) from the counter value `i` on, where `rows`
is a `size_t` of `w` bits and `int` has 32 bits. `fuel` bounds the number of
evaluations of the loop condition. -/
def intLoopFrom {σ : Type} (w rows : Nat) (body : Nat → σ → Option σ) :
    Nat → Int → σ → IntLoopResult σ
  | 0, _, _ => IntLoopResult.outOfFuel
  | fuel + 1, i, s =>
    if toSizeT w i < rows then
      match body (toSizeT w i) s with
      | none => IntLoopResult.bodyFailed
      | some s' =>
        if i + 1 ≤ 2 ^ 31 - 1 then intLoopFrom w rows body fuel (i + 1) s'
        else IntLoopResult.overflow
    else IntLoopResult.finished i s

/-- The outcome of a loop with a `size_t` counter, in the terms of a loop with an
`int` counter that ended with the counter value `n`. -/
def asIntLoopResult {σ : Type} (n : Nat) : Option σ → IntLoopResult σ
  | some t => IntLoopResult.finished (n : Int) t
  | none => IntLoopResult.bodyFailed

/-- Embedding of `matrixProductSmartParallel` (`MatrixProduct.cpp`, lines 150-191) with
the `int` counters of its two loops, the rows being processed in index order. `w` is
the number of bits of `size_t` and `fuel` bounds the number of evaluations of each
loop condition. -/
def matrixProductSmartParallel {α : Type} [Zero α] [Add α] [Mul α] (w fuel : Nat)
    (a b c : matrix α) : IntLoopResult (matrix α) :=
  match intLoopFrom w a.rows (parallelZeroBody b.cols) fuel 0 c with
  | IntLoopResult.finished _ c => intLoopFrom w a.rows (parallelRowBody a b) fuel 0 c
  | IntLoopResult.bodyFailed => IntLoopResult.bodyFailed
  | IntLoopResult.overflow => IntLoopResult.overflow
  | IntLoopResult.outOfFuel => IntLoopResult.outOfFuel

/-- Embedding of `matrixProductSmartParallel` (`MatrixProduct.cpp`, lines 150-191) with
the iterations of the loop under `#pragma omp parallel for` executed one after
another, the `int` counter taking the values of `order` in turn. The first loop is
not under the pragma: it runs in index order with its `int` counter, and the second
loop is reached only when the first one has finished. -/
def matrixProductSmartParallelIn {α : Type} [Zero α] [Add α] [Mul α] (w fuel : Nat)
    (order : List Nat) (a b c : matrix α) : IntLoopResult (matrix α) :=
  match intLoopFrom w a.rows (parallelZeroBody b.cols) fuel 0 c with
  | IntLoopResult.finished _ c =>
    asIntLoopResult a.rows
      (forEach order (fun i c => parallelRowBody a b (toSizeT w (i : Int)) c) c)
  | IntLoopResult.bodyFailed => IntLoopResult.bodyFailed
  | IntLoopResult.overflow => IntLoopResult.overflow
  | IntLoopResult.outOfFuel => IntLoopResult.outOfFuel

/-! ## Concrete matrices used as witnesses -/

/-- The all-ones integer matrix with the given dimensions. -/
def ones (rows cols : Nat) : matrix Int :=
  ⟨rows, cols, List.replicate (rows * cols) 1, List.length_replicate _ _⟩

/-- An integer matrix filled with the value `7`, standing for a result matrix with
arbitrary initial contents. -/
def sevens (rows cols : Nat) : matrix Int :=
  ⟨rows, cols, List.replicate (rows * cols) 7, List.length_replicate _ _⟩

/-- The 2 x 2 integer matrix `[[w, x], [y, z]]`. -/
def mat22 (w x y z : Int) : matrix Int := ⟨2, 2, [w, x, y, z], rfl⟩

/-- The integer matrix with the given number of rows and no column. -/
def emptyCols (rows : Nat) : matrix Int := ⟨rows, 0, [], by simp⟩

/-! ## Specification functions -/

/-- The computation shared by the reordered kernels, with counters that cannot
overflow: the zero fill of the rows in index order, then the row body for the row
indices of `order` in turn. `matrixProductSmartNoVec` and `matrixProductSmartVec` are
this function for the index order; it serves to state intermediate results. -/
def reorderedIn {α : Type} [Zero α] [Add α] [Mul α]
    (order : List Nat) (a b c : matrix α) : Option (matrix α) :=
  (forLoop a.rows (parallelZeroBody b.cols) c).bind (forEach order (parallelRowBody a b))

/-- The value the kernels accumulate for the element `(i, j)`: starting from
`init`, the products `a[i][k] * b[k][j]` are added one by one for
`k = 0, 1, ..., n-1`, each on the right of the running value. -/
def dotFrom {α : Type} [Zero α] [Add α] [Mul α] (a b : matrix α) (i j : Nat) (init : α)
    (n : Nat) : α :=
  (List.range n).foldl (fun acc k => acc + a.elem i k * b.elem k j) init

/-- The postcondition shared by the kernels: `r` has the dimensions of `c`, holds
`f i j` in the block of the first `R` rows and `M` columns, and the elements of `c`
elsewhere. -/
def BlockIs {α : Type} [Zero α] (c r : matrix α) (R M : Nat) (f : Nat → Nat → α) : Prop :=
  r.rows = c.rows ∧ r.cols = c.cols ∧
    ∀ i j, j < c.cols → r.elem i j = if i < R ∧ j < M then f i j else c.elem i j

/-- The matrix `t` has the dimensions of `s`. -/
def SameDims {α : Type} (s t : matrix α) : Prop := t.rows = s.rows ∧ t.cols = s.cols

/-- The dimension condition under which the naive kernel stays in range. -/
def NaiveSafe {α : Type} (a b c : matrix α) : Prop :=
  a.rows = 0 ∨ (a.rows ≤ c.rows ∧ b.cols ≤ c.cols ∧ (b.cols = 0 ∨ a.cols ≤ b.rows))

/-- The dimension condition under which the three reordered kernels stay in
range. -/
def SmartSafe {α : Type} (a b c : matrix α) : Prop :=
  a.rows = 0 ∨ (a.rows ≤ c.rows ∧ b.cols ≤ c.cols ∧ a.cols ≤ b.rows)

/-! ## Row-major addressing and the operand values -/

/-- Modelled from the spec: the linear offset at which a matrix with `cols` columns
stores the element at the logical position `(i, j)`, namely `i * cols + j`
(`matrix.h`, which is not part of the sources, implements it in `operator[]`). -/
def offset (cols i j : Nat) : Nat := i * cols + j

/-- The value `double(rand()) / RAND_MAX` that `main` stores in an operand
(`MatrixProduct.cpp`, lines 209 and 219), taken as an exact rational. The result `r`
of `rand()` and the constant `RAND_MAX` of `<stdlib.h>` are parameters. -/
def fillValue (randMax r : Nat) : ℚ := (r : ℚ) / (randMax : ℚ)

/-! ## Loop lemmas -/

theorem forEach_nil {σ : Type} (body : Nat → σ → Option σ) (s : σ) :
    forEach [] body s = some s := rfl

theorem forEach_cons {σ : Type} (i : Nat) (l : List Nat) (body : Nat → σ → Option σ) (s : σ) :
    forEach (i :: l) body s = (body i s).bind (forEach l body) := by
  simp [forEach, List.foldlM_cons, Option.bind_eq_bind]

theorem forEach_append {σ : Type} (l₁ l₂ : List Nat) (body : Nat → σ → Option σ) (s : σ) :
    forEach (l₁ ++ l₂) body s = (forEach l₁ body s).bind (forEach l₂ body) := by
  simp [forEach, List.foldlM_append, Option.bind_eq_bind]

theorem forLoop_zero {σ : Type} (body : Nat → σ → Option σ) (s : σ) :
    forLoop 0 body s = some s := rfl

theorem forLoop_succ {σ : Type} (n : Nat) (body : Nat → σ → Option σ) (s : σ) :
    forLoop (n + 1) body s = (forLoop n body s).bind (body n) := by
  unfold forLoop
  rw [List.range_succ, forEach_append]
  congr 1
  funext t
  rw [forEach_cons]
  cases body n t <;> rfl

/-- Total correctness of a counted loop from an invariant: if `P 0` holds at the
start and every iteration `i < n` started in a state with `P i` succeeds and
establishes `P (i+1)`, the loop succeeds and ends in a state with `P n`. -/
theorem forLoop_inv {σ : Type} (P : Nat → σ → Prop) (body : Nat → σ → Option σ) (n : Nat)
    (s : σ) (h0 : P 0 s)
    (hstep : ∀ i t, i < n → P i t → ∃ t', body i t = some t' ∧ P (i + 1) t') :
    ∃ s', forLoop n body s = some s' ∧ P n s' := by
  induction n with
  | zero => exact ⟨s, rfl, h0⟩
  | succ n ih =>
    obtain ⟨t, ht, hP⟩ := ih (fun i t hi => hstep i t (Nat.lt_succ_of_lt hi))
    obtain ⟨t', ht', hP'⟩ := hstep n t (Nat.lt_succ_self n) hP
    exact ⟨t', by rw [forLoop_succ, ht]; exact ht', hP'⟩

/-- A counted loop fails as soon as one iteration fails on every state that
satisfies an invariant of the loop. -/
theorem forLoop_fail {σ : Type} (I : σ → Prop) (body : Nat → σ → Option σ) (n : Nat) (s : σ)
    (h0 : I s) (hpres : ∀ i t t', I t → body i t = some t' → I t')
    (i : Nat) (hi : i < n) (hfail : ∀ t, I t → body i t = none) :
    forLoop n body s = none := by
  have key : ∀ m, (∀ t, forLoop m body s = some t → I t) ∧
      (i < m → forLoop m body s = none) := by
    intro m
    induction m with
    | zero =>
      refine ⟨fun t ht => ?_, fun h => absurd h (Nat.not_lt_zero i)⟩
      rw [forLoop_zero] at ht
      cases ht
      exact h0
    | succ m ih =>
      rw [forLoop_succ]
      cases hm : forLoop m body s with
      | none => exact ⟨fun t ht => (by cases ht), fun _ => rfl⟩
      | some u =>
        have hu : I u := ih.1 u hm
        refine ⟨fun t ht => hpres m u t hu ht, fun him => ?_⟩
        rcases Nat.lt_succ_iff_lt_or_eq.mp him with h | h
        · rw [ih.2 h] at hm
          cases hm
        · subst h
          exact hfail u hu
  exact (key n).2 hi

/-! ## Storage lemmas -/

theorem index_lt {R C i j : Nat} (hi : i < R) (hj : j < C) : i * C + j < R * C := by
  calc i * C + j < i * C + C := Nat.add_lt_add_left hj _
    _ = (i + 1) * C := by ring
    _ ≤ R * C := Nat.mul_le_mul_right C hi

theorem index_inj {C i j i' j' : Nat} (hj : j < C) (hj' : j' < C)
    (h : i * C + j = i' * C + j') : i = i' ∧ j = j' := by
  have hC : 0 < C := Nat.lt_of_le_of_lt (Nat.zero_le j) hj
  have h1 : (i * C + j) / C = i := by
    rw [Nat.mul_comm, Nat.mul_add_div hC, Nat.div_eq_of_lt hj, Nat.add_zero]
  have h2 : (i' * C + j') / C = i' := by
    rw [Nat.mul_comm, Nat.mul_add_div hC, Nat.div_eq_of_lt hj', Nat.add_zero]
  have hii : i = i' := by rw [← h1, ← h2, h]
  subst hii
  exact ⟨rfl, Nat.add_left_cancel h⟩

theorem matrix.row_of_lt {α : Type} (m : matrix α) {i : Nat} (hi : i < m.rows) :
    m.row i = some (i * m.cols) := by
  simp [matrix.row, hi]

theorem matrix.row_of_ge {α : Type} (m : matrix α) {i : Nat} (hi : m.rows ≤ i) :
    m.row i = none := by
  simp [matrix.row, Nat.not_lt.mpr hi]

theorem matrix.read_of_lt {α : Type} [Zero α] (m : matrix α) {i j : Nat} (hi : i < m.rows)
    (hj : j < m.cols) : m.read (i * m.cols) j = some (m.elem i j) := by
  have hlt : i * m.cols + j < m.data.length := by
    rw [m.size_eq]; exact index_lt hi hj
  simp [matrix.read, matrix.elem, hj, List.getElem?_eq_getElem hlt]

theorem matrix.write_of_ge {α : Type} (m : matrix α) (p : Nat) {j : Nat} (v : α)
    (hj : m.cols ≤ j) : m.write p j v = none := by
  simp [matrix.write, Nat.not_lt.mpr hj]

/-- Writing the element `(i, j)` of a matrix succeeds inside the index range, keeps
the dimensions and changes that element only. -/
theorem matrix.write_of_lt {α : Type} [Zero α] (m : matrix α) {i j : Nat} (v : α)
    (hi : i < m.rows) (hj : j < m.cols) :
    ∃ m', m.write (i * m.cols) j v = some m' ∧ m'.rows = m.rows ∧ m'.cols = m.cols ∧
      m'.data = m.data.set (i * m.cols + j) v ∧
      ∀ i' j', j' < m.cols → m'.elem i' j' = if i' = i ∧ j' = j then v else m.elem i' j' := by
  have hlt : i * m.cols + j < m.data.length := by
    rw [m.size_eq]; exact index_lt hi hj
  refine ⟨⟨m.rows, m.cols, m.data.set (i * m.cols + j) v, by
      rw [List.length_set]; exact m.size_eq⟩, ?_, rfl, rfl, rfl, ?_⟩
  · simp [matrix.write, hj, hlt]
  · intro i' j' hj'
    by_cases h : i' = i ∧ j' = j
    · obtain ⟨rfl, rfl⟩ := h
      simp [matrix.elem, List.getElem?_set, hlt]
    · have hne : i * m.cols + j ≠ i' * m.cols + j' := by
        intro he
        obtain ⟨h1, h2⟩ := index_inj hj hj' he
        exact h ⟨h1.symm, h2.symm⟩
      simp [matrix.elem, List.getElem?_set_ne hne, h]

/-- Two matrices with the same dimensions and the same elements are equal. -/
theorem matrix.ext_elem {α : Type} [Zero α] {m m' : matrix α} (hr : m.rows = m'.rows)
    (hc : m.cols = m'.cols)
    (h : ∀ i j, i < m.rows → j < m.cols → m.elem i j = m'.elem i j) : m = m' := by
  obtain ⟨r, c, d, hd⟩ := m
  obtain ⟨r', c', d', hd'⟩ := m'
  simp only at hr hc
  subst hr
  subst hc
  have hdd : d = d' := by
    apply List.ext_getElem (by rw [hd, hd'])
    intro p h1 h2
    have hp : p < r * c := by rw [← hd]; exact h1
    have hc0 : 0 < c := by
      rcases Nat.eq_zero_or_pos c with h0 | h0
      · subst h0; simp at hp
      · exact h0
    have hdiv : p / c < r := Nat.div_lt_of_lt_mul (by rw [Nat.mul_comm]; exact hp)
    have hmod : p % c < c := Nat.mod_lt p hc0
    have hpe : p / c * c + p % c = p := Nat.div_add_mod' p c
    have := h (p / c) (p % c) hdiv hmod
    simp only [matrix.elem, hpe] at this
    rw [List.getElem?_eq_getElem h1, List.getElem?_eq_getElem h2] at this
    simpa using this
  subst hdd
  rfl

theorem matrix.write_dims {α : Type} {m m' : matrix α} {p j : Nat} {v : α}
    (h : m.write p j v = some m') : m'.rows = m.rows ∧ m'.cols = m.cols := by
  unfold matrix.write at h
  split at h
  · cases h
    exact ⟨rfl, rfl⟩
  · cases h

/-- A counted loop preserves every property that its body preserves. -/
theorem forLoop_pres {σ : Type} (I : σ → Prop) (body : Nat → σ → Option σ)
    (hpres : ∀ i t t', I t → body i t = some t' → I t') (n : Nat) (s s' : σ) (h0 : I s)
    (h : forLoop n body s = some s') : I s' := by
  induction n generalizing s' with
  | zero =>
    rw [forLoop_zero] at h
    cases h
    exact h0
  | succ n ih =>
    rw [forLoop_succ] at h
    cases hn : forLoop n body s with
    | none => rw [hn] at h; cases h
    | some u =>
      rw [hn] at h
      exact hpres n u s' (ih u hn) h

theorem dotFrom_zero {α : Type} [Zero α] [Add α] [Mul α] (a b : matrix α) (i j : Nat)
    (init : α) : dotFrom a b i j init 0 = init := rfl

theorem dotFrom_succ {α : Type} [Zero α] [Add α] [Mul α] (a b : matrix α) (i j : Nat)
    (init : α) (n : Nat) :
    dotFrom a b i j init (n + 1) = dotFrom a b i j init n + a.elem i n * b.elem n j := by
  simp [dotFrom, List.range_succ, List.foldl_append]

/-- A loop over the columns `j < M` of row `i` whose iteration `j` replaces the
element `(i, j)` by `g j` and touches nothing else. -/
theorem rowLoop_spec {α : Type} [Zero α] (s : matrix α) (i M : Nat) (hM : M ≤ s.cols)
    (body : Nat → matrix α → Option (matrix α)) (g : Nat → α)
    (hbody : ∀ j t, j < M → SameDims s t → t.elem i j = s.elem i j →
      ∃ t', body j t = some t' ∧ SameDims s t' ∧
        ∀ i' j', j' < s.cols → t'.elem i' j' = if i' = i ∧ j' = j then g j else t.elem i' j') :
    ∃ s', forLoop M body s = some s' ∧ SameDims s s' ∧
      ∀ i' j', j' < s.cols → s'.elem i' j' = if i' = i ∧ j' < M then g j' else s.elem i' j' := by
  have key := forLoop_inv
    (fun j t => j ≤ M ∧ SameDims s t ∧
      ∀ i' j', j' < s.cols → t.elem i' j' = if i' = i ∧ j' < j then g j' else s.elem i' j')
    body M s ⟨Nat.zero_le M, ⟨rfl, rfl⟩, fun i' j' _ => by simp⟩ ?_
  · obtain ⟨s', hs', _, hd, he⟩ := key
    exact ⟨s', hs', hd, he⟩
  · intro j t hj ⟨_, hd, he⟩
    have hjc : j < s.cols := Nat.lt_of_lt_of_le hj hM
    have hcur : t.elem i j = s.elem i j := by
      rw [he i j hjc]; simp
    obtain ⟨t', ht', hd', he'⟩ := hbody j t hj hd hcur
    refine ⟨t', ht', hj, hd', fun i' j' hj' => ?_⟩
    rw [he' i' j' hj', he i' j' hj']
    by_cases h1 : i' = i
    · subst h1
      by_cases h2 : j' = j
      · subst h2; simp
      · have : j' < j + 1 ↔ j' < j := by omega
        simp [h2, this]
    · simp [h1]

/-- A loop over the row indices of `order` whose iteration `i` replaces the first
`M` elements of row `i` by `G i` and touches nothing else; each row is visited at
most once. -/
theorem forEachRow_spec {α : Type} [Zero α] (s : matrix α) (M : Nat) (order : List Nat)
    (hnd : order.Nodup) (body : Nat → matrix α → Option (matrix α)) (G : Nat → Nat → α)
    (hbody : ∀ i t, i ∈ order → SameDims s t → (∀ j, j < s.cols → t.elem i j = s.elem i j) →
      ∃ t', body i t = some t' ∧ SameDims s t' ∧
        ∀ i' j', j' < s.cols → t'.elem i' j' = if i' = i ∧ j' < M then G i j' else t.elem i' j') :
    ∃ s', forEach order body s = some s' ∧ SameDims s s' ∧
      ∀ i' j', j' < s.cols →
        s'.elem i' j' = if i' ∈ order ∧ j' < M then G i' j' else s.elem i' j' := by
  induction order using List.reverseRecOn with
  | nil => exact ⟨s, rfl, ⟨rfl, rfl⟩, fun i' j' _ => by simp⟩
  | append_singleton l x ih =>
    have hnd' : l.Nodup ∧ x ∉ l := by
      have := List.nodup_append.mp hnd
      refine ⟨this.1, fun hx => ?_⟩
      exact this.2.2 hx (List.mem_singleton_self x)
    obtain ⟨t, ht, hd, he⟩ := ih hnd'.1
      (fun i t hi => hbody i t (List.mem_append_left _ hi))
    have hcur : ∀ j, j < s.cols → t.elem x j = s.elem x j := by
      intro j hj
      rw [he x j hj]
      simp [hnd'.2]
    obtain ⟨t', ht', hd', he'⟩ := hbody x t (by simp) hd hcur
    refine ⟨t', ?_, hd', fun i' j' hj' => ?_⟩
    · rw [forEach_append, ht]
      show forEach [x] body t = some t'
      rw [forEach_cons, ht']
      rfl
    · rw [he' i' j' hj', he i' j' hj']
      by_cases h1 : i' = x
      · subst h1
        by_cases h2 : j' < M
        · simp [h2]
        · simp [h2]
      · simp [h1]

/-! ## The loop bodies of the kernels -/

theorem parallelZeroBody_spec {α : Type} [Zero α] (t : matrix α) (M i : Nat)
    (hi : i < t.rows) (hM : M ≤ t.cols) :
    ∃ t', parallelZeroBody M i t = some t' ∧ SameDims t t' ∧
      ∀ i' j', j' < t.cols → t'.elem i' j' = if i' = i ∧ j' < M then 0 else t.elem i' j' := by
  unfold parallelZeroBody
  simp only [matrix.row_of_lt t hi, Option.bind_eq_bind, Option.some_bind]
  apply rowLoop_spec t i M hM _ (fun _ => 0)
  intro j u hj hd _
  have hiu : i < u.rows := by rw [hd.1]; exact hi
  have hju : j < u.cols := by rw [hd.2]; exact Nat.lt_of_lt_of_le hj hM
  obtain ⟨u', hu', hr, hc, _, he⟩ := matrix.write_of_lt u (0 : α) hiu hju
  rw [hd.2] at hu' he
  exact ⟨u', hu', ⟨hr.trans hd.1, hc.trans hd.2⟩, he⟩

theorem parallelRowBody_spec {α : Type} [Zero α] [Add α] [Mul α] (a b t : matrix α) (i : Nat)
    (hia : i < a.rows) (hit : i < t.rows) (hn : a.cols ≤ b.rows) (hM : b.cols ≤ t.cols) :
    ∃ t', parallelRowBody a b i t = some t' ∧ SameDims t t' ∧
      ∀ i' j', j' < t.cols → t'.elem i' j' =
        if i' = i ∧ j' < b.cols then dotFrom a b i j' (t.elem i j') a.cols else t.elem i' j' := by
  unfold parallelRowBody
  simp only [matrix.row_of_lt a hia, matrix.row_of_lt t hit, Option.bind_eq_bind,
    Option.some_bind]
  have key := forLoop_inv
    (fun k u => SameDims t u ∧ ∀ i' j', j' < t.cols → u.elem i' j' =
      if i' = i ∧ j' < b.cols then dotFrom a b i j' (t.elem i j') k else t.elem i' j')
    (fun k c => (b.row k).bind fun bk => (a.read (i * a.cols) k).bind fun aik =>
      forLoop b.cols (fun j c => (c.read (i * t.cols) j).bind fun cij =>
        (b.read bk j).bind fun bkj => c.write (i * t.cols) j (cij + aik * bkj)) c)
    a.cols t ⟨⟨rfl, rfl⟩, fun i' j' _ => by
      by_cases h : i' = i
      · subst h; simp [dotFrom_zero]
      · simp [h]⟩ ?_
  · exact key
  · intro k u hk ⟨hd, he⟩
    have hkb : k < b.rows := Nat.lt_of_lt_of_le hk hn
    simp only [matrix.row_of_lt b hkb, matrix.read_of_lt a hia hk, Option.some_bind]
    have hMu : b.cols ≤ u.cols := by rw [hd.2]; exact hM
    obtain ⟨u', hu', hd', he'⟩ := rowLoop_spec u i b.cols hMu
      (fun j c => (c.read (i * t.cols) j).bind fun cij =>
        (b.read (k * b.cols) j).bind fun bkj => c.write (i * t.cols) j (cij + a.elem i k * bkj))
      (fun j => u.elem i j + a.elem i k * b.elem k j) (by
        intro j w hj hdw hcur
        have hiw : i < w.rows := by rw [hdw.1, hd.1]; exact hit
        have hjw : j < w.cols := by rw [hdw.2]; exact Nat.lt_of_lt_of_le hj hMu
        have hwc : w.cols = t.cols := hdw.2.trans hd.2
        have hrd := matrix.read_of_lt w hiw hjw
        rw [hwc] at hrd
        simp only [hrd, matrix.read_of_lt b hkb hj, Option.some_bind]
        obtain ⟨w', hw', hr, hc, _, hew⟩ :=
          matrix.write_of_lt w (w.elem i j + a.elem i k * b.elem k j) hiw hjw
        rw [hwc] at hw'
        rw [hdw.2] at hew
        rw [hcur] at hew
        exact ⟨w', hw', ⟨hr.trans hdw.1, hc.trans hdw.2⟩, hew⟩)
    refine ⟨u', hu', ⟨hd'.1.trans hd.1, hd'.2.trans hd.2⟩, fun i' j' hj' => ?_⟩
    have hj'u : j' < u.cols := by rw [hd.2]; exact hj'
    rw [he' i' j' hj'u, he i' j' hj']
    by_cases h1 : i' = i ∧ j' < b.cols
    · obtain ⟨rfl, h2⟩ := h1
      rw [he i' j' hj']
      simp [h2, dotFrom_succ]
    · simp [h1]

theorem matrixProductNaive_eq {α : Type} [Zero α] [Add α] [Mul α] (a b c : matrix α) :
    matrixProductNaive a b c = forLoop a.rows (naiveRowBody a b) c := rfl

theorem matrixProductSmartNoVec_eq {α : Type} [Zero α] [Add α] [Mul α] (a b c : matrix α) :
    matrixProductSmartNoVec a b c = reorderedIn (List.range a.rows) a b c :=
  rfl

theorem matrixProductSmartVec_eq {α : Type} [Zero α] [Add α] [Mul α] (a b c : matrix α) :
    matrixProductSmartVec a b c = reorderedIn (List.range a.rows) a b c :=
  rfl

theorem naiveDot_spec {α : Type} [Zero α] [Add α] [Mul α] (a b : matrix α) (i j : Nat)
    (hia : i < a.rows) (hn : a.cols ≤ b.rows) (hj : j < b.cols) :
    naiveDot a b (i * a.cols) j = some (dotFrom a b i j 0 a.cols) := by
  unfold naiveDot
  obtain ⟨r, hr, hP⟩ := forLoop_inv (fun k res => res = dotFrom a b i j 0 k)
    (fun k res => (a.read (i * a.cols) k).bind fun aik => (b.row k).bind fun bk =>
      (b.read bk j).bind fun bkj => some (res + aik * bkj))
    a.cols (0 : α) rfl (by
      intro k res hk hres
      have hkb : k < b.rows := Nat.lt_of_lt_of_le hk hn
      simp only [matrix.read_of_lt a hia hk, matrix.row_of_lt b hkb, matrix.read_of_lt b hkb hj,
        Option.some_bind]
      exact ⟨_, rfl, by rw [dotFrom_succ, hres]⟩)
  rw [← hP]
  exact hr

theorem naiveRowBody_spec {α : Type} [Zero α] [Add α] [Mul α] (a b t : matrix α) (i : Nat)
    (hia : i < a.rows) (hit : i < t.rows) (hM : b.cols ≤ t.cols)
    (hn : b.cols = 0 ∨ a.cols ≤ b.rows) :
    ∃ t', naiveRowBody a b i t = some t' ∧ SameDims t t' ∧
      ∀ i' j', j' < t.cols → t'.elem i' j' =
        if i' = i ∧ j' < b.cols then dotFrom a b i j' 0 a.cols else t.elem i' j' := by
  unfold naiveRowBody
  simp only [matrix.row_of_lt a hia, matrix.row_of_lt t hit, Option.bind_eq_bind,
    Option.some_bind]
  apply rowLoop_spec t i b.cols hM _ (fun j => dotFrom a b i j 0 a.cols)
  intro j w hj hdw _
  have hn' : a.cols ≤ b.rows := by
    rcases hn with h | h
    · rw [h] at hj; exact absurd hj (Nat.not_lt_zero j)
    · exact h
  have hiw : i < w.rows := by rw [hdw.1]; exact hit
  have hjw : j < w.cols := by rw [hdw.2]; exact Nat.lt_of_lt_of_le hj hM
  simp only [naiveDot_spec a b i j hia hn' hj, matrix.row_of_lt w hiw, Option.some_bind]
  obtain ⟨w', hw', hr, hc, _, hew⟩ := matrix.write_of_lt w (dotFrom a b i j 0 a.cols) hiw hjw
  rw [hdw.2] at hew
  exact ⟨w', hw', ⟨hr.trans hdw.1, hc.trans hdw.2⟩, hew⟩

/-! ## The kernels in closed form -/

theorem BlockIs_unique {α : Type} [Zero α] {c r r' : matrix α} {R M : Nat}
    {f : Nat → Nat → α} (h : BlockIs c r R M f) (h' : BlockIs c r' R M f) : r = r' := by
  obtain ⟨hr, hc, he⟩ := h
  obtain ⟨hr', hc', he'⟩ := h'
  apply matrix.ext_elem (hr.trans hr'.symm) (hc.trans hc'.symm)
  intro i j _ hj
  rw [hc] at hj
  rw [he i j hj, he' i j hj]

/-- Under its dimension condition the naive kernel succeeds and leaves in the block
of the first `a.rows` rows and `b.cols` columns of `c` the accumulated dot
products, the rest of `c` being unchanged. -/
theorem naive_spec {α : Type} [Zero α] [Add α] [Mul α] (a b c : matrix α)
    (h : NaiveSafe a b c) :
    ∃ r, matrixProductNaive a b c = some r ∧
      BlockIs c r a.rows b.cols (fun i j => dotFrom a b i j 0 a.cols) := by
  obtain ⟨r, hr, hd, he⟩ := forEachRow_spec c b.cols (List.range a.rows) (List.nodup_range _)
    (naiveRowBody a b) (fun i j => dotFrom a b i j 0 a.cols) (by
      intro i t hi hdt _
      have hiR : i < a.rows := List.mem_range.mp hi
      have hs : a.rows ≤ c.rows ∧ b.cols ≤ c.cols ∧ (b.cols = 0 ∨ a.cols ≤ b.rows) := by
        rcases h with h0 | h1
        · rw [h0] at hiR; exact absurd hiR (Nat.not_lt_zero i)
        · exact h1
      have hit : i < t.rows := by rw [hdt.1]; exact Nat.lt_of_lt_of_le hiR hs.1
      have hMt : b.cols ≤ t.cols := by rw [hdt.2]; exact hs.2.1
      obtain ⟨t', ht', hd', he'⟩ := naiveRowBody_spec a b t i hiR hit hMt hs.2.2
      rw [hdt.2] at he'
      exact ⟨t', ht', ⟨hd'.1.trans hdt.1, hd'.2.trans hdt.2⟩, he'⟩)
  refine ⟨r, hr, hd.1, hd.2, fun i j hj => ?_⟩
  rw [he i j hj]
  simp only [List.mem_range]

/-- Under their dimension condition the reordered kernels, with the rows of the
second loop taken in any order that visits each row index once, succeed and leave
in the block of the first `a.rows` rows and `b.cols` columns of `c` the accumulated
dot products, the rest of `c` being unchanged. -/
theorem reorderedIn_spec {α : Type} [Zero α] [Add α] [Mul α] (order : List Nat)
    (a b c : matrix α) (hp : order.Perm (List.range a.rows)) (h : SmartSafe a b c) :
    ∃ r, reorderedIn order a b c = some r ∧
      BlockIs c r a.rows b.cols (fun i j => dotFrom a b i j 0 a.cols) := by
  have hs : ∀ i, i < a.rows → a.rows ≤ c.rows ∧ b.cols ≤ c.cols ∧ a.cols ≤ b.rows := by
    intro i hiR
    rcases h with h0 | h1
    · rw [h0] at hiR; exact absurd hiR (Nat.not_lt_zero i)
    · exact h1
  obtain ⟨z, hz, hdz, hez⟩ := forEachRow_spec c b.cols (List.range a.rows)
    (List.nodup_range _) (parallelZeroBody b.cols) (fun _ _ => (0 : α)) (by
      intro i t hi hdt _
      have hiR : i < a.rows := List.mem_range.mp hi
      have hit : i < t.rows := by rw [hdt.1]; exact Nat.lt_of_lt_of_le hiR (hs i hiR).1
      have hMt : b.cols ≤ t.cols := by rw [hdt.2]; exact (hs i hiR).2.1
      obtain ⟨t', ht', hd', he'⟩ := parallelZeroBody_spec t b.cols i hit hMt
      rw [hdt.2] at he'
      exact ⟨t', ht', ⟨hd'.1.trans hdt.1, hd'.2.trans hdt.2⟩, he'⟩)
  obtain ⟨r, hr, hdr, her⟩ := forEachRow_spec z b.cols order
    (hp.nodup_iff.mpr (List.nodup_range _))
    (parallelRowBody a b) (fun i j => dotFrom a b i j 0 a.cols) (by
      intro i t hi hdt hcur
      have hiR : i < a.rows := List.mem_range.mp (hp.mem_iff.mp hi)
      have hit : i < t.rows := by
        rw [hdt.1, hdz.1]; exact Nat.lt_of_lt_of_le hiR (hs i hiR).1
      have hMt : b.cols ≤ t.cols := by rw [hdt.2, hdz.2]; exact (hs i hiR).2.1
      obtain ⟨t', ht', hd', he'⟩ := parallelRowBody_spec a b t i hiR hit (hs i hiR).2.2 hMt
      rw [hdt.2] at he'
      refine ⟨t', ht', ⟨hd'.1.trans hdt.1, hd'.2.trans hdt.2⟩, fun i' j' hj' => ?_⟩
      rw [he' i' j' hj']
      by_cases h1 : i' = i ∧ j' < b.cols
      · have hz0 : t.elem i j' = 0 := by
          rw [hcur j' hj', hez i j' (by rw [← hdz.2]; exact hj')]
          simp [hiR, h1.2]
        simp [h1, hz0]
      · simp [h1])
  refine ⟨r, ?_, hdr.1.trans hdz.1, hdr.2.trans hdz.2, fun i j hj => ?_⟩
  · unfold reorderedIn
    have hz' : forLoop a.rows (parallelZeroBody b.cols) c = some z := hz
    simp only [hz', Option.bind_eq_bind, Option.some_bind]
    exact hr
  · rw [her i j (by rw [hdz.2]; exact hj), hez i j hj]
    have hmem : i ∈ order ↔ i < a.rows := by rw [hp.mem_iff, List.mem_range]
    by_cases h1 : i < a.rows ∧ j < b.cols
    · simp [hmem, h1]
    · simp [hmem, h1]

/-! ## Preservation of the dimensions and failure of the kernels -/

theorem sameDims_after_write {α : Type} {s t t' : matrix α} {p j : Nat} {v : α} (h : SameDims s t)
    (hw : t.write p j v = some t') : SameDims s t' :=
  ⟨(matrix.write_dims hw).1.trans h.1, (matrix.write_dims hw).2.trans h.2⟩

theorem parallelZeroBody_dims {α : Type} [Zero α] (s : matrix α) (M i : Nat) (t t' : matrix α)
    (hd : SameDims s t) (h : parallelZeroBody M i t = some t') : SameDims s t' := by
  unfold parallelZeroBody at h
  simp only [Option.bind_eq_bind, Option.bind_eq_some] at h
  obtain ⟨ci, _, h⟩ := h
  exact forLoop_pres (SameDims s) _ (fun j w w' hw hb => sameDims_after_write hw hb) M t t' hd h

theorem parallelRowBody_dims {α : Type} [Add α] [Mul α] (s a b : matrix α) (i : Nat)
    (t t' : matrix α) (hd : SameDims s t) (h : parallelRowBody a b i t = some t') :
    SameDims s t' := by
  unfold parallelRowBody at h
  simp only [Option.bind_eq_bind, Option.bind_eq_some] at h
  obtain ⟨ai, _, ci, _, h⟩ := h
  refine forLoop_pres (SameDims s) _ (fun k u u' hu hb => ?_) a.cols t t' hd h
  simp only [Option.bind_eq_some] at hb
  obtain ⟨bk, _, aik, _, hb⟩ := hb
  refine forLoop_pres (SameDims s) _ (fun j w w' hw hbj => ?_) b.cols u u' hu hb
  simp only [Option.bind_eq_some] at hbj
  obtain ⟨cij, _, bkj, _, hbj⟩ := hbj
  exact sameDims_after_write hw hbj

theorem naiveRowBody_dims {α : Type} [Zero α] [Add α] [Mul α] (s a b : matrix α) (i : Nat)
    (t t' : matrix α) (hd : SameDims s t) (h : naiveRowBody a b i t = some t') :
    SameDims s t' := by
  unfold naiveRowBody at h
  simp only [Option.bind_eq_bind, Option.bind_eq_some] at h
  obtain ⟨ai, _, ci, _, h⟩ := h
  refine forLoop_pres (SameDims s) _ (fun j w w' hw hbj => ?_) b.cols t t' hd h
  simp only [Option.bind_eq_some] at hbj
  obtain ⟨res, _, ci', _, hbj⟩ := hbj
  exact sameDims_after_write hw hbj

/-- The dot product loop of the naive kernel fails when `b` has fewer rows than `a`
has columns. -/
theorem naiveDot_fail {α : Type} [Zero α] [Add α] [Mul α] (a b : matrix α) (ai j : Nat)
    (hn : b.rows < a.cols) : naiveDot a b ai j = none := by
  unfold naiveDot
  apply forLoop_fail (fun _ => True) _ a.cols (0 : α) trivial (fun _ _ _ _ _ => trivial)
    b.rows hn
  intro res _
  simp only [Option.bind_eq_bind, matrix.row_of_ge b (Nat.le_refl _)]
  cases a.read ai b.rows <;> rfl

/-- Outside its dimension condition the naive kernel fails. -/
theorem naive_fail {α : Type} [Zero α] [Add α] [Mul α] (a b c : matrix α)
    (h : ¬ NaiveSafe a b c) : matrixProductNaive a b c = none := by
  have hR : 0 < a.rows := by
    rcases Nat.eq_zero_or_pos a.rows with h0 | h0
    · exact absurd (Or.inl h0) h
    · exact h0
  rw [matrixProductNaive_eq]
  by_cases hrows : a.rows ≤ c.rows
  · -- the first row is in range; a column or a row of `b` is not
    apply forLoop_fail (SameDims c) _ a.rows c ⟨rfl, rfl⟩
      (fun i t t' ht hb => naiveRowBody_dims c a b i t t' ht hb) 0 hR
    intro t ht
    have h0t : 0 < t.rows := by rw [ht.1]; exact Nat.lt_of_lt_of_le hR hrows
    unfold naiveRowBody
    simp only [matrix.row_of_lt a hR, matrix.row_of_lt t h0t, Option.bind_eq_bind,
      Option.some_bind]
    by_cases hcols : b.cols ≤ c.cols
    · have hM : 0 < b.cols ∧ b.rows < a.cols := by
        constructor
        · rcases Nat.eq_zero_or_pos b.cols with h0 | h0
          · exact absurd (Or.inr ⟨hrows, hcols, Or.inl h0⟩) h
          · exact h0
        · apply Nat.lt_of_not_le
          intro hle
          exact h (Or.inr ⟨hrows, hcols, Or.inr hle⟩)
      apply forLoop_fail (fun _ => True) _ b.cols t trivial (fun _ _ _ _ _ => trivial) 0 hM.1
      intro w _
      rw [naiveDot_fail a b _ 0 hM.2]
      rfl
    · have hlt : c.cols < b.cols := Nat.lt_of_not_le hcols
      apply forLoop_fail (SameDims c) _ b.cols t ht ?_ c.cols hlt
      · intro w hw
        have h0w : 0 < w.rows := by
          rw [hw.1]; exact Nat.lt_of_lt_of_le hR hrows
        cases naiveDot a b (0 * a.cols) c.cols with
        | none => rfl
        | some res =>
          simp only [Option.some_bind, matrix.row_of_lt w h0w]
          exact matrix.write_of_ge w _ res (Nat.le_of_eq hw.2)
      · intro j w w' hw hb
        simp only [Option.bind_eq_some] at hb
        obtain ⟨res, _, ci', _, hb⟩ := hb
        exact sameDims_after_write hw hb
  · have hlt : c.rows < a.rows := Nat.lt_of_not_le hrows
    apply forLoop_fail (SameDims c) _ a.rows c ⟨rfl, rfl⟩
      (fun i t t' ht hb => naiveRowBody_dims c a b i t t' ht hb) c.rows hlt
    intro t ht
    unfold naiveRowBody
    simp only [matrix.row_of_lt a hlt, matrix.row_of_ge t (Nat.le_of_eq ht.1),
      Option.bind_eq_bind, Option.some_bind, Option.none_bind]

/-- Outside their dimension condition the reordered kernels fail, in whatever order
the rows of the second loop are taken. -/
theorem smart_fail {α : Type} [Zero α] [Add α] [Mul α] (a b c : matrix α)
    (h : ¬ SmartSafe a b c) : reorderedIn (List.range a.rows) a b c = none := by
  have hR : 0 < a.rows := by
    rcases Nat.eq_zero_or_pos a.rows with h0 | h0
    · exact absurd (Or.inl h0) h
    · exact h0
  unfold reorderedIn
  by_cases hrows : a.rows ≤ c.rows
  · by_cases hcols : b.cols ≤ c.cols
    · have hn : b.rows < a.cols := by
        apply Nat.lt_of_not_le
        intro hle
        exact h (Or.inr ⟨hrows, hcols, hle⟩)
      cases hz : forLoop a.rows (parallelZeroBody b.cols) c with
      | none => rfl
      | some z =>
        have hdz : SameDims c z := forLoop_pres (SameDims c) _
          (fun i t t' ht hb => parallelZeroBody_dims c b.cols i t t' ht hb) a.rows c z
          ⟨rfl, rfl⟩ hz
        show forLoop a.rows (parallelRowBody a b) z = none
        apply forLoop_fail (SameDims c) _ a.rows z hdz
          (fun i t t' ht hb => parallelRowBody_dims c a b i t t' ht hb) 0 hR
        intro t ht
        have h0t : 0 < t.rows := by rw [ht.1]; exact Nat.lt_of_lt_of_le hR hrows
        unfold parallelRowBody
        simp only [matrix.row_of_lt a hR, matrix.row_of_lt t h0t, Option.bind_eq_bind,
          Option.some_bind]
        apply forLoop_fail (fun _ => True) _ a.cols t trivial (fun _ _ _ _ _ => trivial)
          b.rows hn
        intro w _
        simp only [matrix.row_of_ge b (Nat.le_refl _), Option.none_bind]
    · have hlt : c.cols < b.cols := Nat.lt_of_not_le hcols
      have hz : forLoop a.rows (parallelZeroBody b.cols) c = none := by
        apply forLoop_fail (SameDims c) _ a.rows c ⟨rfl, rfl⟩
          (fun i t t' ht hb => parallelZeroBody_dims c b.cols i t t' ht hb) 0 hR
        intro t ht
        have h0t : 0 < t.rows := by rw [ht.1]; exact Nat.lt_of_lt_of_le hR hrows
        unfold parallelZeroBody
        simp only [matrix.row_of_lt t h0t, Option.bind_eq_bind, Option.some_bind]
        apply forLoop_fail (SameDims c) _ b.cols t ht (fun j w w' hw hb => sameDims_after_write hw hb)
          c.cols hlt
        intro w hw
        exact matrix.write_of_ge w _ 0 (Nat.le_of_eq hw.2)
      rw [hz]
      rfl
  · have hlt : c.rows < a.rows := Nat.lt_of_not_le hrows
    have hz : forLoop a.rows (parallelZeroBody b.cols) c = none := by
      apply forLoop_fail (SameDims c) _ a.rows c ⟨rfl, rfl⟩
        (fun i t t' ht hb => parallelZeroBody_dims c b.cols i t t' ht hb) c.rows hlt
      intro t ht
      unfold parallelZeroBody
      simp only [matrix.row_of_ge t (Nat.le_of_eq ht.1), Option.bind_eq_bind, Option.none_bind]
    rw [hz]
    rfl

/-- Over a commutative semiring the accumulated value is the sum of the products. -/
theorem dotFrom_eq_sum {α : Type} [CommSemiring α] (a b : matrix α) (i j n : Nat) :
    dotFrom a b i j 0 n = ∑ k in Finset.range n, a.elem i k * b.elem k j := by
  induction n with
  | zero => simp [dotFrom_zero]
  | succ n ih => rw [dotFrom_succ, Finset.sum_range_succ, ih]

theorem matrix.elem_of_ge {α : Type} [Zero α] (m : matrix α) {i : Nat} (j : Nat)
    (hi : m.rows ≤ i) : m.elem i j = 0 := by
  have hlen : m.data.length ≤ i * m.cols + j := by
    rw [m.size_eq]
    exact Nat.le_trans (Nat.mul_le_mul_right m.cols hi) (Nat.le_add_right _ _)
  simp [matrix.elem, List.getElem?_eq_none hlen]

theorem matrix.getElem?_eq_elem {α : Type} [Zero α] (m : matrix α) {p : Nat}
    (hp : p < m.data.length) : m.data[p]? = some (m.elem (p / m.cols) (p % m.cols)) := by
  simp [matrix.elem, Nat.div_add_mod' p m.cols, List.getElem?_eq_getElem hp]

/-- When `c` is exactly the block, the result does not depend on `c`. -/
theorem BlockIs_full {α : Type} [Zero α] {c c' r : matrix α} {R M : Nat} {f : Nat → Nat → α}
    (hr : c.rows = R) (hc : c.cols = M) (hr' : c'.rows = R) (hc' : c'.cols = M)
    (h : BlockIs c r R M f) : BlockIs c' r R M f := by
  obtain ⟨h1, h2, h3⟩ := h
  refine ⟨h1.trans (hr.trans hr'.symm), h2.trans (hc.trans hc'.symm), fun i j hj => ?_⟩
  have hjc : j < c.cols := by rw [hc, ← hc']; exact hj
  rw [h3 i j hjc]
  by_cases hi : i < R
  · have hjM : j < M := by rw [← hc']; exact hj
    simp [hi, hjM]
  · have hge : R ≤ i := Nat.le_of_not_lt hi
    rw [matrix.elem_of_ge c j (by rw [hr]; exact hge),
      matrix.elem_of_ge c' j (by rw [hr']; exact hge)]

theorem naiveSafe_of_smartSafe {α : Type} {a b c : matrix α} (h : SmartSafe a b c) :
    NaiveSafe a b c := by
  rcases h with h | ⟨h1, h2, h3⟩
  · exact Or.inl h
  · exact Or.inr ⟨h1, h2, Or.inr h3⟩

theorem smartSafe_of_dims {α : Type} {a b c : matrix α} (hab : a.cols = b.rows)
    (hr : c.rows = a.rows) (hc : c.cols = b.cols) : SmartSafe a b c :=
  Or.inr ⟨Nat.le_of_eq hr.symm, Nat.le_of_eq hc.symm, Nat.le_of_eq hab⟩

/-- Under the dimension condition of the reordered kernels the kernels with `size_t`
counters succeed with one and the same result, whatever the operations are. -/
theorem kernels_agree_of_safe {α : Type} [Zero α] [Add α] [Mul α] (a b c : matrix α)
    (h : SmartSafe a b c) :
    ∃ r, matrixProductNaive a b c = some r ∧ matrixProductSmartNoVec a b c = some r ∧
      matrixProductSmartVec a b c = some r ∧
      BlockIs c r a.rows b.cols (fun i j => dotFrom a b i j 0 a.cols) := by
  obtain ⟨r, hr, hB⟩ := reorderedIn_spec (List.range a.rows) a b c (List.Perm.refl _) h
  obtain ⟨r', hr', hB'⟩ := naive_spec a b c (naiveSafe_of_smartSafe h)
  have : r' = r := BlockIs_unique hB' hB
  subst this
  exact ⟨r', hr', by rw [matrixProductSmartNoVec_eq]; exact hr,
    by rw [matrixProductSmartVec_eq]; exact hr, hB⟩

/-! ## The `int` row counter of the parallel kernel -/

theorem toSizeT_natCast (w n : Nat) (h : n < 2 ^ w) : toSizeT w (n : Int) = n := by
  unfold toSizeT
  have h' : (n : Int) < (2 : Int) ^ w := by exact_mod_cast h
  rw [Int.emod_eq_of_lt (Int.ofNat_nonneg n) h']
  exact Int.toNat_ofNat n

/-- From the counter value `i <= rows` on, with `rows` within the range of `int` and
enough fuel, the loop with the `int` counter visits the indices `i, ..., rows - 1` in
order, as a loop over that range does, and ends with the counter at `rows`. -/
theorem intLoopFrom_eq_forEach {σ : Type} (w rows : Nat) (hw : 32 ≤ w)
    (hrows : rows ≤ 2 ^ 31 - 1) (body : Nat → σ → Option σ) (fuel i : Nat) (s : σ)
    (hi : i ≤ rows) (hfuel : rows - i < fuel) :
    intLoopFrom w rows body fuel (i : Int) s
      = asIntLoopResult rows (forEach (List.range' i (rows - i)) body s) := by
  have hpow : 2 ^ 32 ≤ 2 ^ w := Nat.pow_le_pow_right (by decide) hw
  have hiw : i < 2 ^ w := by
    have : (2 : Nat) ^ 31 - 1 < 2 ^ 32 := by decide
    omega
  induction fuel generalizing i s with
  | zero => exact absurd hfuel (Nat.not_lt_zero _)
  | succ fuel ih =>
    unfold intLoopFrom
    rw [toSizeT_natCast w i hiw]
    by_cases hlt : i < rows
    · have hrange : List.range' i (rows - i) = i :: List.range' (i + 1) (rows - (i + 1)) := by
        have : rows - i = (rows - (i + 1)) + 1 := by omega
        rw [this, List.range'_succ]
      rw [if_pos hlt, hrange, forEach_cons]
      cases hb : body i s with
      | none => rfl
      | some s' =>
        have hno : (i : Int) + 1 ≤ 2 ^ 31 - 1 := by
          have h1 : i + 1 ≤ 2 ^ 31 - 1 := by omega
          have h2 : ((i + 1 : Nat) : Int) ≤ ((2 ^ 31 - 1 : Nat) : Int) := by exact_mod_cast h1
          have h3 : ((2 ^ 31 - 1 : Nat) : Int) = 2 ^ 31 - 1 := by norm_num
          rw [← h3]
          exact_mod_cast h2
        have hw' : i + 1 < 2 ^ w := by
          have : (2 : Nat) ^ 31 - 1 < 2 ^ 32 := by decide
          omega
        simp only [if_pos hno, Option.some_bind]
        have hcast : (i : Int) + 1 = ((i + 1 : Nat) : Int) := by push_cast; rfl
        rw [hcast]
        exact ih (i + 1) s' hlt (by omega) hw'
    · have hieq : i = rows := Nat.le_antisymm hi (Nat.le_of_not_lt hlt)
      rw [if_neg hlt, hieq, Nat.sub_self]
      rfl

/-- The loop over `0 .. n-1` that records the indices it is given records
`0, 1, ..., n-1`. -/
theorem forLoop_records_range (n : Nat) :
    forLoop n (fun i (l : List Nat) => some (l ++ [i])) [] = some (List.range n) := by
  induction n with
  | zero => rfl
  | succ n ih => rw [forLoop_succ, ih, List.range_succ]; rfl

theorem forEach_congr {σ : Type} (order : List Nat) (f g : Nat → σ → Option σ)
    (h : ∀ i, i ∈ order → ∀ s, f i s = g i s) (s : σ) :
    forEach order f s = forEach order g s := by
  induction order generalizing s with
  | nil => rfl
  | cons x l ih =>
    rw [forEach_cons, forEach_cons, h x (List.mem_cons_self x l) s]
    cases g x s with
    | none => rfl
    | some t => exact ih (fun i hi => h i (List.mem_cons_of_mem x hi)) t

/-- With the row count within the range of `int` and enough fuel, the loop with the
`int` counter has the outcome of the loop with the `size_t` counter. -/
theorem intLoopFrom_eq_forLoop {σ : Type} (w rows fuel : Nat) (hw : 32 ≤ w)
    (hrows : rows ≤ 2 ^ 31 - 1) (hfuel : rows < fuel) (body : Nat → σ → Option σ) (s : σ) :
    intLoopFrom w rows body fuel 0 s = asIntLoopResult rows (forLoop rows body s) := by
  have h := intLoopFrom_eq_forEach w rows hw hrows body fuel 0 s (Nat.zero_le _)
    (by rw [Nat.sub_zero]; exact hfuel)
  rw [Nat.sub_zero, ← List.range_eq_range'] at h
  exact h

/-- With the row count of `a` within the range of `int` and enough fuel, the parallel
kernel with the rows taken in `order` has the outcome of the computation with
counters that cannot overflow. -/
theorem parallelIn_eq_reorderedIn {α : Type} [Zero α] [Add α] [Mul α] (w fuel : Nat)
    (order : List Nat) (a b c : matrix α) (hw : 32 ≤ w) (hrows : a.rows ≤ 2 ^ 31 - 1)
    (hfuel : a.rows < fuel) (horder : ∀ i, i ∈ order → i < a.rows) :
    matrixProductSmartParallelIn w fuel order a b c
      = asIntLoopResult a.rows (reorderedIn order a b c) := by
  have hpow : 2 ^ 32 ≤ 2 ^ w := Nat.pow_le_pow_right (by decide) hw
  have hlt : (2 : Nat) ^ 31 - 1 < 2 ^ 32 := by decide
  unfold matrixProductSmartParallelIn reorderedIn
  rw [intLoopFrom_eq_forLoop w a.rows fuel hw hrows hfuel]
  cases forLoop a.rows (parallelZeroBody b.cols) c with
  | none => rfl
  | some z =>
    show asIntLoopResult a.rows
      (forEach order (fun i c => parallelRowBody a b (toSizeT w (i : Int)) c) z)
      = asIntLoopResult a.rows (forEach order (parallelRowBody a b) z)
    rw [forEach_congr order _ (parallelRowBody a b) (fun i hi t => by
      show parallelRowBody a b (toSizeT w (i : Int)) t = parallelRowBody a b i t
      rw [toSizeT_natCast w i (by have := horder i hi; omega)])]

/-- With the row count of `a` within the range of `int` and enough fuel, the parallel
kernel has the outcome of `matrixProductSmartVec`. -/
theorem parallel_eq_smartVec {α : Type} [Zero α] [Add α] [Mul α] (w fuel : Nat)
    (a b c : matrix α) (hw : 32 ≤ w) (hrows : a.rows ≤ 2 ^ 31 - 1) (hfuel : a.rows < fuel) :
    matrixProductSmartParallel w fuel a b c
      = asIntLoopResult a.rows (matrixProductSmartVec a b c) := by
  rw [matrixProductSmartVec_eq]
  unfold matrixProductSmartParallel reorderedIn
  rw [intLoopFrom_eq_forLoop w a.rows fuel hw hrows hfuel]
  cases forLoop a.rows (parallelZeroBody b.cols) c with
  | none => rfl
  | some z =>
    show intLoopFrom w a.rows (parallelRowBody a b) fuel 0 z = _
    rw [intLoopFrom_eq_forLoop w a.rows fuel hw hrows hfuel]
    rfl

/-- A loop with the `int` counter whose body succeeds on every index below `rows`
never ends with a failed body, and when it finishes, the invariant of the body
holds. -/
theorem intLoopFrom_ne_bodyFailed {σ : Type} (w rows : Nat) (I : σ → Prop)
    (body : Nat → σ → Option σ)
    (hbody : ∀ i s, I s → i < rows → ∃ s', body i s = some s' ∧ I s')
    (fuel : Nat) (i : Int) (s : σ) (hs : I s) :
    intLoopFrom w rows body fuel i s ≠ IntLoopResult.bodyFailed ∧
      ∀ k t, intLoopFrom w rows body fuel i s = IntLoopResult.finished k t → I t := by
  induction fuel generalizing i s with
  | zero =>
    unfold intLoopFrom
    exact ⟨fun h => (by cases h), fun k t h => (by cases h)⟩
  | succ fuel ih =>
    unfold intLoopFrom
    by_cases hlt : toSizeT w i < rows
    · obtain ⟨s', hs', hI'⟩ := hbody (toSizeT w i) s hs hlt
      simp only [if_pos hlt, hs']
      by_cases hov : i + 1 ≤ 2 ^ 31 - 1
      · rw [if_pos hov]
        exact ih (i + 1) s' hI'
      · rw [if_neg hov]
        exact ⟨fun h => (by cases h), fun k t h => (by cases h)⟩
    · rw [if_neg hlt]
      refine ⟨fun h => (by cases h), fun k t h => ?_⟩
      cases h
      exact hs

/-- With `2^31` rows or more, a loop with the `int` counter whose body succeeds on
every index below `rows` overflows its counter, given the fuel to get there. -/
theorem intLoopFrom_overflow {σ : Type} (w rows : Nat) (hw : 32 ≤ w) (hbig : 2 ^ 31 ≤ rows)
    (I : σ → Prop) (body : Nat → σ → Option σ)
    (hbody : ∀ i s, I s → i < rows → ∃ s', body i s = some s' ∧ I s')
    (fuel i : Nat) (s : σ) (hs : I s) (hi : i ≤ 2 ^ 31 - 1) (hfuel : 2 ^ 31 - i ≤ fuel) :
    intLoopFrom w rows body fuel (i : Int) s = IntLoopResult.overflow := by
  have hpow : 2 ^ 32 ≤ 2 ^ w := Nat.pow_le_pow_right (by decide) hw
  have h31 : (2 : Nat) ^ 31 = 2147483648 := by norm_num
  have h32 : (2 : Nat) ^ 32 = 4294967296 := by norm_num
  have h31z : (2 : Int) ^ 31 = 2147483648 := by norm_num
  rw [h31] at hbig hi hfuel
  rw [h32] at hpow
  induction fuel generalizing i s with
  | zero => omega
  | succ fuel ih =>
    unfold intLoopFrom
    rw [toSizeT_natCast w i (by omega)]
    have hlt : i < rows := by omega
    obtain ⟨s', hs', hI'⟩ := hbody i s hs hlt
    simp only [if_pos hlt, hs']
    by_cases hov : i + 1 ≤ 2147483647
    · have hov' : (i : Int) + 1 ≤ 2 ^ 31 - 1 := by rw [h31z]; omega
      rw [if_pos hov']
      have hcast : (i : Int) + 1 = ((i + 1 : Nat) : Int) := by push_cast; rfl
      rw [hcast]
      exact ih (i + 1) s' hI' (by omega) (by omega)
    · have hov' : ¬ (i : Int) + 1 ≤ 2 ^ 31 - 1 := by rw [h31z]; omega
      rw [if_neg hov']

/-- With `2^31` rows or more, a loop with the `int` counter started at a counter value
within the range of `int` never finishes, whatever the fuel. -/
theorem intLoopFrom_not_finished {σ : Type} (w rows : Nat) (hw : 32 ≤ w)
    (hbig : 2 ^ 31 ≤ rows) (body : Nat → σ → Option σ) (fuel i : Nat) (s : σ)
    (hi : i ≤ 2 ^ 31 - 1) (k : Int) (t : σ) :
    intLoopFrom w rows body fuel (i : Int) s ≠ IntLoopResult.finished k t := by
  have hpow : 2 ^ 32 ≤ 2 ^ w := Nat.pow_le_pow_right (by decide) hw
  have h31 : (2 : Nat) ^ 31 = 2147483648 := by norm_num
  have h32 : (2 : Nat) ^ 32 = 4294967296 := by norm_num
  have h31z : (2 : Int) ^ 31 = 2147483648 := by norm_num
  rw [h31] at hbig hi
  rw [h32] at hpow
  induction fuel generalizing i s with
  | zero =>
    unfold intLoopFrom
    intro h
    cases h
  | succ fuel ih =>
    unfold intLoopFrom
    rw [toSizeT_natCast w i (by omega)]
    have hlt : i < rows := by omega
    rw [if_pos hlt]
    cases body i s with
    | none => intro h; cases h
    | some s' =>
      by_cases hov : i + 1 ≤ 2147483647
      · have hov' : (i : Int) + 1 ≤ 2 ^ 31 - 1 := by rw [h31z]; omega
        have hcast : (i : Int) + 1 = ((i + 1 : Nat) : Int) := by push_cast; rfl
        simp only [if_pos hov']
        rw [hcast]
        exact ih (i + 1) s' (by omega)
      · have hov' : ¬ (i : Int) + 1 ≤ 2 ^ 31 - 1 := by rw [h31z]; omega
        simp only [if_neg hov']
        intro h
        cases h

theorem parallelZeroBody_succeeds {α : Type} [Zero α] (a b c : matrix α)
    (hr : a.rows ≤ c.rows) (hc : b.cols ≤ c.cols) (i : Nat) (t : matrix α)
    (ht : SameDims c t) (hi : i < a.rows) :
    ∃ t', parallelZeroBody b.cols i t = some t' ∧ SameDims c t' := by
  obtain ⟨t', h, hd, _⟩ := parallelZeroBody_spec t b.cols i
    (by rw [ht.1]; exact Nat.lt_of_lt_of_le hi hr) (by rw [ht.2]; exact hc)
  exact ⟨t', h, hd.1.trans ht.1, hd.2.trans ht.2⟩

theorem parallelRowBody_succeeds {α : Type} [Zero α] [Add α] [Mul α] (a b c : matrix α)
    (hr : a.rows ≤ c.rows) (hc : b.cols ≤ c.cols) (hn : a.cols ≤ b.rows) (i : Nat)
    (t : matrix α) (ht : SameDims c t) (hi : i < a.rows) :
    ∃ t', parallelRowBody a b i t = some t' ∧ SameDims c t' := by
  obtain ⟨t', h, hd, _⟩ := parallelRowBody_spec a b t i hi
    (by rw [ht.1]; exact Nat.lt_of_lt_of_le hi hr) hn (by rw [ht.2]; exact hc)
  exact ⟨t', h, hd.1.trans ht.1, hd.2.trans ht.2⟩

/-- Under the dimension condition of the reordered kernels the parallel kernel never
ends with an out-of-range access, whatever the row count, the width of `size_t` and
the fuel are. -/
theorem parallel_ne_bodyFailed {α : Type} [Zero α] [Add α] [Mul α] (w fuel : Nat)
    (a b c : matrix α) (hr : a.rows ≤ c.rows) (hc : b.cols ≤ c.cols)
    (hn : a.cols ≤ b.rows) :
    matrixProductSmartParallel w fuel a b c ≠ IntLoopResult.bodyFailed := by
  have hz := intLoopFrom_ne_bodyFailed w a.rows (SameDims c) (parallelZeroBody b.cols)
    (fun i t ht hi => parallelZeroBody_succeeds a b c hr hc i t ht hi) fuel 0 c ⟨rfl, rfl⟩
  unfold matrixProductSmartParallel
  cases h1 : intLoopFrom w a.rows (parallelZeroBody b.cols) fuel 0 c with
  | finished k z =>
    rw [h1] at hz
    exact (intLoopFrom_ne_bodyFailed w a.rows (SameDims c) (parallelRowBody a b)
      (fun i t ht hi => parallelRowBody_succeeds a b c hr hc hn i t ht hi) fuel 0 z
      (hz.2 k z rfl)).1
  | bodyFailed =>
    rw [h1] at hz
    exact absurd rfl hz.1
  | overflow => intro h; cases h
  | outOfFuel => intro h; cases h

/-- With `2^31` rows or more in `a`, the first loop of the parallel kernel overflows
its `int` counter, and so does the kernel, in whatever order the rows of the second
loop would be taken; with no fuel at all does the kernel finish. -/
theorem parallel_overflows {α : Type} [Zero α] [Add α] [Mul α] (w : Nat) (a b c : matrix α)
    (hw : 32 ≤ w) (hbig : 2 ^ 31 ≤ a.rows) (hr : a.rows ≤ c.rows) (hc : b.cols ≤ c.cols) :
    (∀ fuel, 2 ^ 31 ≤ fuel →
      matrixProductSmartParallel w fuel a b c = IntLoopResult.overflow) ∧
    (∀ fuel order, 2 ^ 31 ≤ fuel →
      matrixProductSmartParallelIn w fuel order a b c = IntLoopResult.overflow) ∧
    (∀ fuel k r, matrixProductSmartParallel w fuel a b c ≠ IntLoopResult.finished k r) ∧
    (∀ fuel order k r,
      matrixProductSmartParallelIn w fuel order a b c ≠ IntLoopResult.finished k r) := by
  have hov : ∀ fuel, 2 ^ 31 ≤ fuel →
      intLoopFrom w a.rows (parallelZeroBody b.cols) fuel 0 c = IntLoopResult.overflow := by
    intro fuel hfuel
    exact intLoopFrom_overflow w a.rows hw hbig (SameDims c) (parallelZeroBody b.cols)
      (fun i t ht hi => parallelZeroBody_succeeds a b c hr hc i t ht hi) fuel 0 c ⟨rfl, rfl⟩
      (Nat.zero_le _) (by rw [Nat.sub_zero]; exact hfuel)
  have hnf : ∀ fuel k z,
      intLoopFrom w a.rows (parallelZeroBody b.cols) fuel 0 c ≠ IntLoopResult.finished k z :=
    fun fuel k z => intLoopFrom_not_finished w a.rows hw hbig (parallelZeroBody b.cols) fuel 0 c
      (Nat.zero_le _) k z
  refine ⟨fun fuel hfuel => ?_, fun fuel order hfuel => ?_, fun fuel k r => ?_,
    fun fuel order k r => ?_⟩
  · unfold matrixProductSmartParallel
    rw [hov fuel hfuel]
  · unfold matrixProductSmartParallelIn
    rw [hov fuel hfuel]
  · unfold matrixProductSmartParallel
    cases h1 : intLoopFrom w a.rows (parallelZeroBody b.cols) fuel 0 c with
    | finished k' z => exact absurd h1 (hnf fuel k' z)
    | bodyFailed => intro h; cases h
    | overflow => intro h; cases h
    | outOfFuel => intro h; cases h
  · unfold matrixProductSmartParallelIn
    cases h1 : intLoopFrom w a.rows (parallelZeroBody b.cols) fuel 0 c with
    | finished k' z => exact absurd h1 (hnf fuel k' z)
    | bodyFailed => intro h; cases h
    | overflow => intro h; cases h
    | outOfFuel => intro h; cases h

/-- When `b` has no column, the kernels with `size_t` counters return `c` as it was,
under the dimension condition of the reordered kernels. -/
theorem kernels_without_columns {α : Type} [Zero α] [Add α] [Mul α] (a b c : matrix α)
    (h : SmartSafe a b c) (hb : b.cols = 0) :
    matrixProductNaive a b c = some c ∧ matrixProductSmartNoVec a b c = some c ∧
      matrixProductSmartVec a b c = some c := by
  obtain ⟨r, h1, h2, h3, hdr, hdc, he⟩ := kernels_agree_of_safe a b c h
  have hrc : r = c := by
    apply matrix.ext_elem hdr hdc
    intro i j _ hj
    rw [he i j (by rw [← hdc]; exact hj)]
    simp [hb]
  subst hrc
  exact ⟨h1, h2, h3⟩

/-- The outcomes of the kernels on `a` with `2^31` rows and no column, `b` of size
0 x 0 and `c` with `2^31` rows and no column: the kernels with `size_t` counters
return `c`, the parallel kernel overflows its `int` counter. -/
theorem outcomes_at_two_pow_31_rows :
    matrixProductNaive (emptyCols 2147483648) (emptyCols 0) (emptyCols 2147483648)
      = some (emptyCols 2147483648) ∧
    matrixProductSmartNoVec (emptyCols 2147483648) (emptyCols 0) (emptyCols 2147483648)
      = some (emptyCols 2147483648) ∧
    matrixProductSmartVec (emptyCols 2147483648) (emptyCols 0) (emptyCols 2147483648)
      = some (emptyCols 2147483648) ∧
    matrixProductSmartParallel 64 2147483649 (emptyCols 2147483648) (emptyCols 0)
      (emptyCols 2147483648) = IntLoopResult.overflow ∧
    (∀ order, matrixProductSmartParallelIn 64 2147483649 order (emptyCols 2147483648)
      (emptyCols 0) (emptyCols 2147483648) = IntLoopResult.overflow) ∧
    (∀ fuel k r, matrixProductSmartParallel 64 fuel (emptyCols 2147483648) (emptyCols 0)
      (emptyCols 2147483648) ≠ IntLoopResult.finished k r) := by
  have hs : SmartSafe (emptyCols 2147483648) (emptyCols 0) (emptyCols 2147483648) :=
    smartSafe_of_dims rfl rfl rfl
  obtain ⟨h1, h2, h3⟩ := kernels_without_columns _ _ _ hs rfl
  have hbig : 2 ^ 31 ≤ (emptyCols 2147483648).rows := by
    show 2 ^ 31 ≤ 2147483648
    norm_num
  obtain ⟨g1, g2, g3, _⟩ := parallel_overflows 64 (emptyCols 2147483648) (emptyCols 0)
    (emptyCols 2147483648) (by norm_num) hbig (Nat.le_refl _) (Nat.le_refl _)
  exact ⟨h1, h2, h3, g1 2147483649 (by norm_num), fun order => g2 2147483649 order (by norm_num),
    g3⟩

/-! ## The claims -/

/-- C1: `matrixProductNaive` computes the matrix product. For every `a` (R x N), `b`
(N x M) and pre-allocated `c` (R x M) over a commutative semiring the call succeeds
and leaves a matrix of the dimensions R x M whose element `(i, j)` is the sum over
`k = 0..N-1` of `a[i][k] * b[k][j]`, for every `i < R` and `j < M` (the empty sum
being `0`). -/
theorem matrixProductNaive_computes_product {α : Type} [CommSemiring α] (a b c : matrix α)
    (hab : a.cols = b.rows) (hr : c.rows = a.rows) (hc : c.cols = b.cols) :
    ∃ r, matrixProductNaive a b c = some r ∧ r.rows = a.rows ∧ r.cols = b.cols ∧
      ∀ i j, i < a.rows → j < b.cols →
        r.elem i j = ∑ k in Finset.range a.cols, a.elem i k * b.elem k j := by
  obtain ⟨r, h, hr', hc', he⟩ := naive_spec a b c (naiveSafe_of_smartSafe (smartSafe_of_dims hab hr hc))
  refine ⟨r, h, hr'.trans hr, hc'.trans hc, fun i j hi hj => ?_⟩
  rw [he i j (by rw [hc]; exact hj), ← dotFrom_eq_sum]
  simp [hi, hj]

/-- The hypotheses of C1 hold for the 2 x 3 and 3 x 2 all-ones matrices and a 2 x 2
result matrix, and the naive kernel leaves `[[3,3],[3,3]]` there. -/
theorem matrixProductNaive_computes_product_witness :
    (ones 2 3).cols = (ones 3 2).rows ∧ (sevens 2 2).rows = (ones 2 3).rows ∧
    (sevens 2 2).cols = (ones 3 2).cols ∧
    (matrixProductNaive (ones 2 3) (ones 3 2) (sevens 2 2)).map matrix.data
      = some [3, 3, 3, 3] ∧
    ∃ r, matrixProductNaive (ones 2 3) (ones 3 2) (sevens 2 2) = some r ∧
      r.rows = (ones 2 3).rows ∧ r.cols = (ones 3 2).cols ∧
      ∀ i j, i < (ones 2 3).rows → j < (ones 3 2).cols →
        r.elem i j = ∑ k in Finset.range (ones 2 3).cols, (ones 2 3).elem i k * (ones 3 2).elem k j :=
  ⟨rfl, rfl, rfl, by decide,
    matrixProductNaive_computes_product (ones 2 3) (ones 3 2) (sevens 2 2) rfl rfl rfl⟩

/-- C2, as stated, fails: for `a` with `2^31` rows and no column, `b` of size 0 x 0 and
`c` with `2^31` rows and no column, which have the dimensions the claim asks for, the
naive, the cache-reordered and the vectorized kernel leave `c`, while the parallel
kernel overflows its `int` row counter and returns no matrix, whatever the fuel. -/
theorem four_kernels_disagree_at_two_pow_31_rows :
    (emptyCols 2147483648).cols = (emptyCols 0).rows ∧
    (emptyCols 2147483648).rows = (emptyCols 2147483648).rows ∧
    (emptyCols 2147483648).cols = (emptyCols 0).cols ∧
    matrixProductNaive (emptyCols 2147483648) (emptyCols 0) (emptyCols 2147483648)
      = some (emptyCols 2147483648) ∧
    matrixProductSmartNoVec (emptyCols 2147483648) (emptyCols 0) (emptyCols 2147483648)
      = some (emptyCols 2147483648) ∧
    matrixProductSmartVec (emptyCols 2147483648) (emptyCols 0) (emptyCols 2147483648)
      = some (emptyCols 2147483648) ∧
    matrixProductSmartParallel 64 2147483649 (emptyCols 2147483648) (emptyCols 0)
      (emptyCols 2147483648) = IntLoopResult.overflow ∧
    (∀ fuel k r, matrixProductSmartParallel 64 fuel (emptyCols 2147483648) (emptyCols 0)
      (emptyCols 2147483648) ≠ IntLoopResult.finished k r) :=
  ⟨rfl, rfl, rfl, outcomes_at_two_pow_31_rows.1, outcomes_at_two_pow_31_rows.2.1,
    outcomes_at_two_pow_31_rows.2.2.1, outcomes_at_two_pow_31_rows.2.2.2.1,
    outcomes_at_two_pow_31_rows.2.2.2.2.2⟩

/-- C2, amended: for every `a` (R x N), `b` (N x M) and `c` (R x M) over a commutative
semiring, `matrixProductNaive`, `matrixProductSmartNoVec` and `matrixProductSmartVec`
succeed and leave the same matrix, and when `R <= 2^31 - 1`, the range of its `int` row
counter, `matrixProductSmartParallel` (rows in index order, `size_t` of at least 32
bits, enough fuel) finishes with that matrix too. -/
theorem four_kernels_agree {α : Type} [CommSemiring α] (a b c : matrix α)
    (hab : a.cols = b.rows) (hr : c.rows = a.rows) (hc : c.cols = b.cols) :
    ∃ r, matrixProductNaive a b c = some r ∧ matrixProductSmartNoVec a b c = some r ∧
      matrixProductSmartVec a b c = some r ∧
      ∀ w fuel, 32 ≤ w → a.rows ≤ 2 ^ 31 - 1 → a.rows < fuel →
        matrixProductSmartParallel w fuel a b c = IntLoopResult.finished (a.rows : Int) r := by
  obtain ⟨r, h1, h2, h3, _⟩ := kernels_agree_of_safe a b c (smartSafe_of_dims hab hr hc)
  refine ⟨r, h1, h2, h3, fun w fuel hw hrows hfuel => ?_⟩
  rw [parallel_eq_smartVec w fuel a b c hw hrows hfuel, h3]
  rfl

/-- The hypotheses of the amended C2 hold for two 2 x 2 matrices, a 2 x 2 result
matrix, a 64-bit `size_t` and the fuel `3`. -/
theorem four_kernels_agree_witness :
    (mat22 2 0 1 3).cols = (mat22 1 4 0 2).rows ∧ (sevens 2 2).rows = (mat22 2 0 1 3).rows ∧
    (sevens 2 2).cols = (mat22 1 4 0 2).cols ∧
    matrixProductSmartParallel 64 3 (mat22 2 0 1 3) (mat22 1 4 0 2) (sevens 2 2)
      = IntLoopResult.finished 2 (mat22 2 8 1 10) ∧
    ∃ r, matrixProductNaive (mat22 2 0 1 3) (mat22 1 4 0 2) (sevens 2 2) = some r ∧
      matrixProductSmartNoVec (mat22 2 0 1 3) (mat22 1 4 0 2) (sevens 2 2) = some r ∧
      matrixProductSmartVec (mat22 2 0 1 3) (mat22 1 4 0 2) (sevens 2 2) = some r ∧
      ∀ w fuel, 32 ≤ w → (mat22 2 0 1 3).rows ≤ 2 ^ 31 - 1 → (mat22 2 0 1 3).rows < fuel →
        matrixProductSmartParallel w fuel (mat22 2 0 1 3) (mat22 1 4 0 2) (sevens 2 2)
          = IntLoopResult.finished ((mat22 2 0 1 3).rows : Int) r :=
  ⟨rfl, rfl, rfl, by decide,
    four_kernels_agree (mat22 2 0 1 3) (mat22 1 4 0 2) (sevens 2 2) rfl rfl rfl⟩

/-- C3, as stated, fails for the parallel kernel: for `a` with `2^31` rows and no
column, `b` of size 0 x 0 and the result matrices `c` and `c'` with `2^31` rows and no
column, the parallel kernel overflows its `int` row counter and leaves no final matrix,
whatever the fuel. -/
theorem parallel_leaves_no_matrix_at_two_pow_31_rows :
    (emptyCols 2147483648).cols = (emptyCols 0).rows ∧
    (emptyCols 2147483648).rows = (emptyCols 2147483648).rows ∧
    (emptyCols 2147483648).cols = (emptyCols 0).cols ∧
    matrixProductSmartParallel 64 2147483649 (emptyCols 2147483648) (emptyCols 0)
      (emptyCols 2147483648) = IntLoopResult.overflow ∧
    ¬ ∃ fuel k r, matrixProductSmartParallel 64 fuel (emptyCols 2147483648) (emptyCols 0)
      (emptyCols 2147483648) = IntLoopResult.finished k r :=
  ⟨rfl, rfl, rfl, outcomes_at_two_pow_31_rows.2.2.2.1,
    fun ⟨fuel, k, r, h⟩ => outcomes_at_two_pow_31_rows.2.2.2.2.2 fuel k r h⟩

/-- C3, amended: the result overwrites `c` and never accumulates onto it. For every
`a` (R x N), `b` (N x M) and every two R x M matrices `c` and `c'` with arbitrary
contents, each of `matrixProductNaive`, `matrixProductSmartNoVec` and
`matrixProductSmartVec` succeeds on both and leaves the same final matrix, and when
`R <= 2^31 - 1` so does `matrixProductSmartParallel` (`size_t` of at least 32 bits,
enough fuel). -/
theorem result_independent_of_initial_c {α : Type} [Zero α] [Add α] [Mul α]
    (a b c c' : matrix α) (hab : a.cols = b.rows) (hr : c.rows = a.rows)
    (hc : c.cols = b.cols) (hr' : c'.rows = a.rows) (hc' : c'.cols = b.cols) :
    (∃ r, matrixProductNaive a b c = some r ∧ matrixProductNaive a b c' = some r) ∧
    (∃ r, matrixProductSmartNoVec a b c = some r ∧ matrixProductSmartNoVec a b c' = some r) ∧
    (∃ r, matrixProductSmartVec a b c = some r ∧ matrixProductSmartVec a b c' = some r) ∧
    (∀ w fuel, 32 ≤ w → a.rows ≤ 2 ^ 31 - 1 → a.rows < fuel →
      ∃ r, matrixProductSmartParallel w fuel a b c = IntLoopResult.finished (a.rows : Int) r ∧
        matrixProductSmartParallel w fuel a b c' = IntLoopResult.finished (a.rows : Int) r) := by
  obtain ⟨r, h1, h2, h3, hB⟩ := kernels_agree_of_safe a b c (smartSafe_of_dims hab hr hc)
  obtain ⟨s, g1, g2, g3, hB'⟩ :=
    kernels_agree_of_safe a b c' (smartSafe_of_dims hab hr' hc')
  have : s = r := BlockIs_unique hB' (BlockIs_full hr hc hr' hc' hB)
  subst this
  refine ⟨⟨s, h1, g1⟩, ⟨s, h2, g2⟩, ⟨s, h3, g3⟩, fun w fuel hw hrows hfuel => ⟨s, ?_, ?_⟩⟩
  · rw [parallel_eq_smartVec w fuel a b c hw hrows hfuel, h3]
    rfl
  · rw [parallel_eq_smartVec w fuel a b c' hw hrows hfuel, g3]
    rfl

/-- The hypotheses of the amended C3 hold for the result matrices `sevens 2 2` and
`ones 2 2`, which differ in every element, a 64-bit `size_t` and the fuel `3`. -/
theorem result_independent_of_initial_c_witness :
    (ones 2 3).cols = (ones 3 2).rows ∧ (sevens 2 2).rows = (ones 2 3).rows ∧
    (sevens 2 2).cols = (ones 3 2).cols ∧ (ones 2 2).rows = (ones 2 3).rows ∧
    (ones 2 2).cols = (ones 3 2).cols ∧
    32 ≤ 64 ∧ (ones 2 3).rows ≤ 2 ^ 31 - 1 ∧ (ones 2 3).rows < 3 ∧
    (∃ r, matrixProductNaive (ones 2 3) (ones 3 2) (sevens 2 2) = some r ∧
        matrixProductNaive (ones 2 3) (ones 3 2) (ones 2 2) = some r) ∧
    (∃ r, matrixProductSmartNoVec (ones 2 3) (ones 3 2) (sevens 2 2) = some r ∧
        matrixProductSmartNoVec (ones 2 3) (ones 3 2) (ones 2 2) = some r) ∧
    (∃ r, matrixProductSmartVec (ones 2 3) (ones 3 2) (sevens 2 2) = some r ∧
        matrixProductSmartVec (ones 2 3) (ones 3 2) (ones 2 2) = some r) ∧
    (∃ r, matrixProductSmartParallel 64 3 (ones 2 3) (ones 3 2) (sevens 2 2)
          = IntLoopResult.finished ((ones 2 3).rows : Int) r ∧
        matrixProductSmartParallel 64 3 (ones 2 3) (ones 3 2) (ones 2 2)
          = IntLoopResult.finished ((ones 2 3).rows : Int) r) :=
  ⟨rfl, rfl, rfl, rfl, rfl, by decide, by decide, by decide,
    (result_independent_of_initial_c (ones 2 3) (ones 3 2) (sevens 2 2) (ones 2 2)
      rfl rfl rfl rfl rfl).1,
    (result_independent_of_initial_c (ones 2 3) (ones 3 2) (sevens 2 2) (ones 2 2)
      rfl rfl rfl rfl rfl).2.1,
    (result_independent_of_initial_c (ones 2 3) (ones 3 2) (sevens 2 2) (ones 2 2)
      rfl rfl rfl rfl rfl).2.2.1,
    (result_independent_of_initial_c (ones 2 3) (ones 3 2) (sevens 2 2) (ones 2 2)
      rfl rfl rfl rfl rfl).2.2.2 64 3 (by decide) (by decide) (by decide)⟩

/-- C4: under the dimension precondition the kernels never index out of range. Row
access fails exactly for a row index `i >= rows`, and element access through the
pointer to a valid row fails exactly for a column index `j >= cols`; for every `a`
(R x N), `b` with exactly N rows and M columns and `c` with R rows and M columns, none
of the four kernels reaches such a failure. The three kernels with `size_t` counters
return a result; the parallel kernel never ends with a failed access, whatever the row
count, the width of `size_t` and the fuel are, and it returns a result when
`R <= 2^31 - 1` (`size_t` of at least 32 bits, enough fuel). -/
theorem kernels_stay_in_range {α : Type} [Zero α] [Add α] [Mul α] (a b c : matrix α)
    (hab : a.cols = b.rows) (hr : c.rows = a.rows) (hc : c.cols = b.cols) :
    (∀ (m : matrix α) (i : Nat), m.row i = none ↔ m.rows ≤ i) ∧
    (∀ (m : matrix α) (i j : Nat), i < m.rows → (m.read (i * m.cols) j = none ↔ m.cols ≤ j)) ∧
    (∀ (m : matrix α) (i j : Nat) (v : α), i < m.rows →
      (m.write (i * m.cols) j v = none ↔ m.cols ≤ j)) ∧
    (matrixProductNaive a b c).isSome = true ∧
    (matrixProductSmartNoVec a b c).isSome = true ∧
    (matrixProductSmartVec a b c).isSome = true ∧
    (∀ w fuel, matrixProductSmartParallel w fuel a b c ≠ IntLoopResult.bodyFailed) ∧
    (∀ w fuel, 32 ≤ w → a.rows ≤ 2 ^ 31 - 1 → a.rows < fuel →
      ∃ r, matrixProductSmartParallel w fuel a b c
        = IntLoopResult.finished (a.rows : Int) r) := by
  obtain ⟨r, h1, h2, h3, _⟩ := kernels_agree_of_safe a b c (smartSafe_of_dims hab hr hc)
  refine ⟨fun m i => ?_, fun m i j hi => ?_, fun m i j v hi => ?_, ?_, ?_, ?_,
    fun w fuel => ?_, fun w fuel hw hrows hfuel => ⟨r, ?_⟩⟩
  · by_cases h : i < m.rows
    · simp [matrix.row_of_lt m h, h]
    · simp [matrix.row_of_ge m (Nat.le_of_not_lt h), Nat.le_of_not_lt h]
  · by_cases h : j < m.cols
    · simp [matrix.read_of_lt m hi h, h]
    · simp [matrix.read, h, Nat.le_of_not_lt h]
  · by_cases h : j < m.cols
    · obtain ⟨m', hm', _⟩ := matrix.write_of_lt m v hi h
      simp [hm', h]
    · simp [matrix.write_of_ge m _ v (Nat.le_of_not_lt h), Nat.le_of_not_lt h]
  · rw [h1]; rfl
  · rw [h2]; rfl
  · rw [h3]; rfl
  · exact parallel_ne_bodyFailed w fuel a b c (Nat.le_of_eq hr.symm) (Nat.le_of_eq hc.symm)
      (Nat.le_of_eq hab)
  · rw [parallel_eq_smartVec w fuel a b c hw hrows hfuel, h3]
    rfl

/-- The hypotheses of C4 hold for a 2 x 3 matrix, a 3 x 2 matrix and a 2 x 2 result
matrix, on which the four kernels return a result. -/
theorem kernels_stay_in_range_witness :
    (ones 2 3).cols = (ones 3 2).rows ∧ (sevens 2 2).rows = (ones 2 3).rows ∧
    (sevens 2 2).cols = (ones 3 2).cols ∧
    32 ≤ 64 ∧ (ones 2 3).rows ≤ 2 ^ 31 - 1 ∧ (ones 2 3).rows < 3 ∧
    (matrixProductNaive (ones 2 3) (ones 3 2) (sevens 2 2)).isSome = true ∧
    (matrixProductSmartNoVec (ones 2 3) (ones 3 2) (sevens 2 2)).isSome = true ∧
    (matrixProductSmartVec (ones 2 3) (ones 3 2) (sevens 2 2)).isSome = true ∧
    (∀ w fuel, matrixProductSmartParallel w fuel (ones 2 3) (ones 3 2) (sevens 2 2)
      ≠ IntLoopResult.bodyFailed) ∧
    (∃ r, matrixProductSmartParallel 64 3 (ones 2 3) (ones 3 2) (sevens 2 2)
      = IntLoopResult.finished ((ones 2 3).rows : Int) r) :=
  ⟨rfl, rfl, rfl, by decide, by decide, by decide,
    (kernels_stay_in_range (ones 2 3) (ones 3 2) (sevens 2 2) rfl rfl rfl).2.2.2.1,
    (kernels_stay_in_range (ones 2 3) (ones 3 2) (sevens 2 2) rfl rfl rfl).2.2.2.2.1,
    (kernels_stay_in_range (ones 2 3) (ones 3 2) (sevens 2 2) rfl rfl rfl).2.2.2.2.2.1,
    (kernels_stay_in_range (ones 2 3) (ones 3 2) (sevens 2 2) rfl rfl rfl).2.2.2.2.2.2.1,
    (kernels_stay_in_range (ones 2 3) (ones 3 2) (sevens 2 2) rfl rfl rfl).2.2.2.2.2.2.2
      64 3 (by decide) (by decide) (by decide)⟩

/-- C5, as stated, fails for the parallel kernel: for `a` with `2^31` rows and no
column, the 0 x 0 identity matrix `b` and `c` with `2^31` rows and no column, the three
kernels with `size_t` counters leave `c` equal to `a`, while the parallel kernel
overflows its `int` row counter and leaves no matrix, whatever the fuel. -/
theorem identity_case_fails_at_two_pow_31_rows :
    (emptyCols 0).rows = (emptyCols 2147483648).cols ∧
    (emptyCols 0).cols = (emptyCols 2147483648).cols ∧
    (∀ k, k < (emptyCols 2147483648).cols → ∀ j, j < (emptyCols 2147483648).cols →
      (emptyCols 0).elem k j = if k = j then 1 else 0) ∧
    matrixProductNaive (emptyCols 2147483648) (emptyCols 0) (emptyCols 2147483648)
      = some (emptyCols 2147483648) ∧
    matrixProductSmartParallel 64 2147483649 (emptyCols 2147483648) (emptyCols 0)
      (emptyCols 2147483648) = IntLoopResult.overflow ∧
    (∀ fuel k, matrixProductSmartParallel 64 fuel (emptyCols 2147483648) (emptyCols 0)
      (emptyCols 2147483648) ≠ IntLoopResult.finished k (emptyCols 2147483648)) :=
  ⟨rfl, rfl, fun k hk => absurd hk (Nat.not_lt_zero k), outcomes_at_two_pow_31_rows.1,
    outcomes_at_two_pow_31_rows.2.2.2.1,
    fun fuel k => outcomes_at_two_pow_31_rows.2.2.2.2.2 fuel k (emptyCols 2147483648)⟩

/-- C5, amended: identity case. For every R x N matrix `a` and every N x N matrix `b`
with `1` on the diagonal and `0` elsewhere, over a commutative semiring each of
`matrixProductNaive`, `matrixProductSmartNoVec` and `matrixProductSmartVec` called on
`(a, b, c)` with `c` of size R x N succeeds and leaves `c` equal to `a`, and when
`R <= 2^31 - 1` so does `matrixProductSmartParallel` (`size_t` of at least 32 bits,
enough fuel). -/
theorem identity_case {α : Type} [CommSemiring α] (a b c : matrix α)
    (hbr : b.rows = a.cols) (hbc : b.cols = a.cols)
    (hI : ∀ k, k < a.cols → ∀ j, j < a.cols → b.elem k j = if k = j then 1 else 0)
    (hr : c.rows = a.rows) (hc : c.cols = a.cols) :
    matrixProductNaive a b c = some a ∧ matrixProductSmartNoVec a b c = some a ∧
      matrixProductSmartVec a b c = some a ∧
      ∀ w fuel, 32 ≤ w → a.rows ≤ 2 ^ 31 - 1 → a.rows < fuel →
        matrixProductSmartParallel w fuel a b c = IntLoopResult.finished (a.rows : Int) a := by
  obtain ⟨r, h1, h2, h3, hdr, hdc, he⟩ :=
    kernels_agree_of_safe a b c (smartSafe_of_dims hbr.symm hr (hc.trans hbc.symm))
  have hra : r = a := by
    apply matrix.ext_elem (hdr.trans hr) (hdc.trans hc)
    intro i j hi hj
    have hi' : i < a.rows := by rw [← hr, ← hdr]; exact hi
    have hj' : j < a.cols := by rw [← hc, ← hdc]; exact hj
    have hjb : j < b.cols := by rw [hbc]; exact hj'
    rw [he i j (by rw [hc]; exact hj')]
    simp only [hi', hjb, and_self, if_true]
    rw [dotFrom_eq_sum]
    have hsum : ∑ k in Finset.range a.cols, a.elem i k * b.elem k j
        = ∑ k in Finset.range a.cols, if k = j then a.elem i k else 0 := by
      apply Finset.sum_congr rfl
      intro k hk
      rw [hI k (Finset.mem_range.mp hk) j hj']
      split <;> simp
    rw [hsum, Finset.sum_ite_eq' (Finset.range a.cols) j (fun k => a.elem i k)]
    simp [hj']
  subst hra
  refine ⟨h1, h2, h3, fun w fuel hw hrows hfuel => ?_⟩
  rw [parallel_eq_smartVec w fuel r b c hw hrows hfuel, h3]
  rfl

/-- The hypotheses of the amended C5 hold for `a = [[1,2],[3,4]]`, the 2 x 2 identity
matrix, a 64-bit `size_t` and the fuel `3`. -/
theorem identity_case_witness :
    (mat22 1 0 0 1).rows = (mat22 1 2 3 4).cols ∧ (mat22 1 0 0 1).cols = (mat22 1 2 3 4).cols ∧
    (∀ k, k < (mat22 1 2 3 4).cols → ∀ j, j < (mat22 1 2 3 4).cols →
      (mat22 1 0 0 1).elem k j = if k = j then 1 else 0) ∧
    (sevens 2 2).rows = (mat22 1 2 3 4).rows ∧ (sevens 2 2).cols = (mat22 1 2 3 4).cols ∧
    32 ≤ 64 ∧ (mat22 1 2 3 4).rows ≤ 2 ^ 31 - 1 ∧ (mat22 1 2 3 4).rows < 3 ∧
    matrixProductNaive (mat22 1 2 3 4) (mat22 1 0 0 1) (sevens 2 2) = some (mat22 1 2 3 4) ∧
    matrixProductSmartNoVec (mat22 1 2 3 4) (mat22 1 0 0 1) (sevens 2 2)
      = some (mat22 1 2 3 4) ∧
    matrixProductSmartVec (mat22 1 2 3 4) (mat22 1 0 0 1) (sevens 2 2)
      = some (mat22 1 2 3 4) ∧
    matrixProductSmartParallel 64 3 (mat22 1 2 3 4) (mat22 1 0 0 1) (sevens 2 2)
      = IntLoopResult.finished ((mat22 1 2 3 4).rows : Int) (mat22 1 2 3 4) :=
  ⟨rfl, rfl, by decide, rfl, rfl, by decide, by decide, by decide,
    (identity_case (mat22 1 2 3 4) (mat22 1 0 0 1) (sevens 2 2) rfl rfl (by decide)
      rfl rfl).1,
    (identity_case (mat22 1 2 3 4) (mat22 1 0 0 1) (sevens 2 2) rfl rfl (by decide)
      rfl rfl).2.1,
    (identity_case (mat22 1 2 3 4) (mat22 1 0 0 1) (sevens 2 2) rfl rfl (by decide)
      rfl rfl).2.2.1,
    (identity_case (mat22 1 2 3 4) (mat22 1 0 0 1) (sevens 2 2) rfl rfl (by decide)
      rfl rfl).2.2.2 64 3 (by decide) (by decide) (by decide)⟩

/-- C6, as stated, fails for the parallel kernel: for `a` with `2^31` rows and no
column and the 0 x 0 zero matrix `b` (and likewise with `a` taken as the zero matrix
of its size), with `c` of `2^31` rows and no column, the parallel kernel overflows its
`int` row counter and leaves no matrix, whatever the fuel. -/
theorem zero_case_fails_at_two_pow_31_rows :
    (emptyCols 2147483648).cols = (emptyCols 0).rows ∧
    (emptyCols 2147483648).rows = (emptyCols 2147483648).rows ∧
    (emptyCols 2147483648).cols = (emptyCols 0).cols ∧
    (∀ k, k < (emptyCols 0).rows → ∀ j, j < (emptyCols 0).cols → (emptyCols 0).elem k j = 0) ∧
    (∀ i, i < (emptyCols 2147483648).rows → ∀ k, k < (emptyCols 2147483648).cols →
      (emptyCols 2147483648).elem i k = 0) ∧
    matrixProductSmartVec (emptyCols 2147483648) (emptyCols 0) (emptyCols 2147483648)
      = some (emptyCols 2147483648) ∧
    matrixProductSmartParallel 64 2147483649 (emptyCols 2147483648) (emptyCols 0)
      (emptyCols 2147483648) = IntLoopResult.overflow ∧
    ¬ ∃ fuel k r, matrixProductSmartParallel 64 fuel (emptyCols 2147483648) (emptyCols 0)
      (emptyCols 2147483648) = IntLoopResult.finished k r :=
  ⟨rfl, rfl, rfl, fun k hk => absurd hk (Nat.not_lt_zero k),
    fun _ _ k hk => absurd hk (Nat.not_lt_zero k), outcomes_at_two_pow_31_rows.2.2.1,
    outcomes_at_two_pow_31_rows.2.2.2.1,
    fun ⟨fuel, k, r, h⟩ => outcomes_at_two_pow_31_rows.2.2.2.2.2 fuel k r h⟩

/-- C6, amended: zero case. For every `a` (R x N), `b` (N x M) and `c` (R x M) over a
commutative semiring, if every element of `b` is `0`, or if every element of `a` is
`0`, each of `matrixProductNaive`, `matrixProductSmartNoVec` and
`matrixProductSmartVec` succeeds and leaves an R x M matrix holding `0` at every
position, whatever `c` held before, and when `R <= 2^31 - 1` so does
`matrixProductSmartParallel` (`size_t` of at least 32 bits, enough fuel). -/
theorem zero_case {α : Type} [CommSemiring α] (a b c : matrix α)
    (hab : a.cols = b.rows) (hr : c.rows = a.rows) (hc : c.cols = b.cols)
    (hz : (∀ k, k < b.rows → ∀ j, j < b.cols → b.elem k j = 0) ∨
      (∀ i, i < a.rows → ∀ k, k < a.cols → a.elem i k = 0)) :
    ∃ r, matrixProductNaive a b c = some r ∧ matrixProductSmartNoVec a b c = some r ∧
      matrixProductSmartVec a b c = some r ∧
      (∀ w fuel, 32 ≤ w → a.rows ≤ 2 ^ 31 - 1 → a.rows < fuel →
        matrixProductSmartParallel w fuel a b c = IntLoopResult.finished (a.rows : Int) r) ∧
      r.rows = a.rows ∧ r.cols = b.cols ∧ r.data = List.replicate (a.rows * b.cols) 0 ∧
      ∀ i j, i < a.rows → j < b.cols → r.elem i j = 0 := by
  obtain ⟨r, h1, h2, h3, hdr, hdc, he⟩ :=
    kernels_agree_of_safe a b c (smartSafe_of_dims hab hr hc)
  have hel : ∀ i j, i < a.rows → j < b.cols → r.elem i j = 0 := by
    intro i j hi hj
    rw [he i j (by rw [hc]; exact hj)]
    simp only [hi, hj, and_self, if_true]
    rw [dotFrom_eq_sum]
    apply Finset.sum_eq_zero
    intro k hk
    have hk' : k < a.cols := Finset.mem_range.mp hk
    rcases hz with hb | ha
    · rw [hb k (by rw [← hab]; exact hk') j hj, mul_zero]
    · rw [ha i hi k hk', zero_mul]
  have hlen : r.data.length = a.rows * b.cols := by
    rw [r.size_eq, hdr, hdc, hr, hc]
  have hpar : ∀ w fuel, 32 ≤ w → a.rows ≤ 2 ^ 31 - 1 → a.rows < fuel →
      matrixProductSmartParallel w fuel a b c = IntLoopResult.finished (a.rows : Int) r := by
    intro w fuel hw hrows hfuel
    rw [parallel_eq_smartVec w fuel a b c hw hrows hfuel, h3]
    rfl
  refine ⟨r, h1, h2, h3, hpar, hdr.trans hr, hdc.trans hc, ?_, hel⟩
  apply List.ext_getElem (by rw [hlen, List.length_replicate])
  intro p hp _
  have hrc : r.cols = b.cols := hdc.trans hc
  have hM : 0 < b.cols := by
    rcases Nat.eq_zero_or_pos b.cols with h0 | h0
    · rw [hlen, h0] at hp; simp at hp
    · exact h0
  have hdiv : p / b.cols < a.rows :=
    Nat.div_lt_of_lt_mul (by rw [Nat.mul_comm, ← hlen]; exact hp)
  have hget := matrix.getElem?_eq_elem r hp
  rw [hrc, hel _ _ hdiv (Nat.mod_lt p hM), List.getElem?_eq_getElem hp] at hget
  rw [List.getElem_replicate]
  exact Option.some.inj hget

/-- The hypotheses of the amended C6 hold for `a = [[1,2],[3,4]]` and the 2 x 2 zero
matrix on the right; with a 64-bit `size_t` and the fuel `3` the parallel kernel
leaves the zero matrix as well. -/
theorem zero_case_witness :
    (mat22 1 2 3 4).cols = (mat22 0 0 0 0).rows ∧ (sevens 2 2).rows = (mat22 1 2 3 4).rows ∧
    (sevens 2 2).cols = (mat22 0 0 0 0).cols ∧
    (∀ k, k < (mat22 0 0 0 0).rows → ∀ j, j < (mat22 0 0 0 0).cols →
      (mat22 0 0 0 0).elem k j = 0) ∧
    matrixProductSmartParallel 64 3 (mat22 1 2 3 4) (mat22 0 0 0 0) (sevens 2 2)
      = IntLoopResult.finished 2 (mat22 0 0 0 0) ∧
    ∃ r, matrixProductNaive (mat22 1 2 3 4) (mat22 0 0 0 0) (sevens 2 2) = some r ∧
      matrixProductSmartNoVec (mat22 1 2 3 4) (mat22 0 0 0 0) (sevens 2 2) = some r ∧
      matrixProductSmartVec (mat22 1 2 3 4) (mat22 0 0 0 0) (sevens 2 2) = some r ∧
      (∀ w fuel, 32 ≤ w → (mat22 1 2 3 4).rows ≤ 2 ^ 31 - 1 → (mat22 1 2 3 4).rows < fuel →
        matrixProductSmartParallel w fuel (mat22 1 2 3 4) (mat22 0 0 0 0) (sevens 2 2)
          = IntLoopResult.finished ((mat22 1 2 3 4).rows : Int) r) ∧
      r.rows = (mat22 1 2 3 4).rows ∧ r.cols = (mat22 0 0 0 0).cols ∧
      r.data = List.replicate ((mat22 1 2 3 4).rows * (mat22 0 0 0 0).cols) 0 ∧
      ∀ i j, i < (mat22 1 2 3 4).rows → j < (mat22 0 0 0 0).cols → r.elem i j = 0 :=
  ⟨rfl, rfl, rfl, by decide, by decide,
    zero_case (mat22 1 2 3 4) (mat22 0 0 0 0) (sevens 2 2) rfl rfl rfl (Or.inl (by decide))⟩

/-- C7, as stated, fails: for `a` with `2^31` rows and no column, `b` of size 0 x 0 and
`c` with `2^31` rows and no column, `matrixProductSmartVec` leaves `c`, while the
parallel kernel overflows the `int` counter of its first loop in whatever order the
rows of the second loop are to be taken, and returns no matrix. -/
theorem parallel_differs_from_smartVec_at_two_pow_31_rows :
    (emptyCols 2147483648).cols = (emptyCols 0).rows ∧
    (emptyCols 2147483648).rows = (emptyCols 2147483648).rows ∧
    (emptyCols 2147483648).cols = (emptyCols 0).cols ∧
    matrixProductSmartVec (emptyCols 2147483648) (emptyCols 0) (emptyCols 2147483648)
      = some (emptyCols 2147483648) ∧
    (∀ order, matrixProductSmartParallelIn 64 2147483649 order (emptyCols 2147483648)
      (emptyCols 0) (emptyCols 2147483648) = IntLoopResult.overflow) ∧
    matrixProductSmartParallel 64 2147483649 (emptyCols 2147483648) (emptyCols 0)
      (emptyCols 2147483648) = IntLoopResult.overflow :=
  ⟨rfl, rfl, rfl, outcomes_at_two_pow_31_rows.2.2.1, outcomes_at_two_pow_31_rows.2.2.2.2.1,
    outcomes_at_two_pow_31_rows.2.2.2.1⟩

/-- C7, amended: row independence of the parallel kernel. For every `a` (R x N) with
`R <= 2^31 - 1`, `b` (N x M), `c` (R x M) and every order in which each of the row
indices `0..R-1` is handed once to the body of the second loop of
`matrixProductSmartParallel`, the kernel (`size_t` of at least 32 bits, enough fuel)
finishes with the same final matrix, which is the one of the index order and the one
of `matrixProductSmartVec`; no law is assumed of `+`, `*` and `0`. -/
theorem parallel_row_order_irrelevant {α : Type} [Zero α] [Add α] [Mul α]
    (a b c : matrix α) (order : List Nat) (hp : order.Perm (List.range a.rows))
    (hab : a.cols = b.rows) (hr : c.rows = a.rows) (hc : c.cols = b.cols)
    (w fuel : Nat) (hw : 32 ≤ w) (hrows : a.rows ≤ 2 ^ 31 - 1) (hfuel : a.rows < fuel) :
    ∃ r, matrixProductSmartParallelIn w fuel order a b c
        = IntLoopResult.finished (a.rows : Int) r ∧
      matrixProductSmartParallel w fuel a b c = IntLoopResult.finished (a.rows : Int) r ∧
      matrixProductSmartVec a b c = some r := by
  obtain ⟨r, _, _, h3, hB⟩ := kernels_agree_of_safe a b c (smartSafe_of_dims hab hr hc)
  obtain ⟨r', hr', hB'⟩ := reorderedIn_spec order a b c hp (smartSafe_of_dims hab hr hc)
  have : r' = r := BlockIs_unique hB' hB
  subst this
  refine ⟨r', ?_, ?_, h3⟩
  · rw [parallelIn_eq_reorderedIn w fuel order a b c hw hrows hfuel
      (fun i hi => List.mem_range.mp (hp.mem_iff.mp hi)), hr']
    rfl
  · rw [parallel_eq_smartVec w fuel a b c hw hrows hfuel, h3]
    rfl

/-- The hypotheses of the amended C7 hold for the order `[1, 0]` of the two rows of a
2 x 2 product, a 64-bit `size_t` and the fuel `3`. -/
theorem parallel_row_order_irrelevant_witness :
    [1, 0].Perm (List.range (mat22 1 2 3 4).rows) ∧
    (mat22 1 2 3 4).cols = (mat22 5 6 7 8).rows ∧ (sevens 2 2).rows = (mat22 1 2 3 4).rows ∧
    (sevens 2 2).cols = (mat22 5 6 7 8).cols ∧
    32 ≤ 64 ∧ (mat22 1 2 3 4).rows ≤ 2 ^ 31 - 1 ∧ (mat22 1 2 3 4).rows < 3 ∧
    matrixProductSmartParallelIn 64 3 [1, 0] (mat22 1 2 3 4) (mat22 5 6 7 8) (sevens 2 2)
      = IntLoopResult.finished 2 (mat22 19 22 43 50) ∧
    ∃ r, matrixProductSmartParallelIn 64 3 [1, 0] (mat22 1 2 3 4) (mat22 5 6 7 8)
        (sevens 2 2) = IntLoopResult.finished ((mat22 1 2 3 4).rows : Int) r ∧
      matrixProductSmartParallel 64 3 (mat22 1 2 3 4) (mat22 5 6 7 8) (sevens 2 2)
        = IntLoopResult.finished ((mat22 1 2 3 4).rows : Int) r ∧
      matrixProductSmartVec (mat22 1 2 3 4) (mat22 5 6 7 8) (sevens 2 2) = some r :=
  ⟨List.Perm.swap 0 1 [], rfl, rfl, rfl, by decide, by decide, by decide, by decide,
    parallel_row_order_irrelevant (mat22 1 2 3 4) (mat22 5 6 7 8) (sevens 2 2) [1, 0]
      (List.Perm.swap 0 1 []) rfl rfl rfl 64 3 (by decide) (by decide) (by decide)⟩

/-- C8: row ownership in the parallel kernel. For every `a` (R x N), `b` (N x M),
`c` (R x M) and `i < R`, one execution of the body of the parallelised loop for the
row index `i` succeeds, keeps the dimensions of `c`, leaves unchanged every storage
element other than `c[i][j]` with `j < M` (so every element of every other row), and
reads `c` in row `i` only: started on any matrix of the same dimensions with the same
row `i` it produces the same row `i`. The elements of two distinct rows have
distinct offsets, so two bodies for distinct indices write disjoint sets. -/
theorem parallelRowBody_owns_its_row {α : Type} [Zero α] [Add α] [Mul α]
    (a b c : matrix α) (i : Nat) (hi : i < a.rows)
    (hab : a.cols = b.rows) (hr : c.rows = a.rows) (hc : c.cols = b.cols) :
    ∃ c', parallelRowBody a b i c = some c' ∧ c'.rows = c.rows ∧ c'.cols = c.cols ∧
      (∀ p, (∀ j, j < b.cols → p ≠ i * c.cols + j) → c'.data[p]? = c.data[p]?) ∧
      (∀ i' j, i' ≠ i → j < c.cols → c'.elem i' j = c.elem i' j) ∧
      (∀ d : matrix α, d.rows = c.rows → d.cols = c.cols →
        (∀ j, j < c.cols → d.elem i j = c.elem i j) →
        ∃ d', parallelRowBody a b i d = some d' ∧
          ∀ j, j < c.cols → d'.elem i j = c'.elem i j) ∧
      (∀ i' j j', i' ≠ i → j < c.cols → j' < c.cols → i * c.cols + j ≠ i' * c.cols + j') := by
  have hic : i < c.rows := by rw [hr]; exact hi
  obtain ⟨c', hc', hd, he⟩ :=
    parallelRowBody_spec a b c i hi hic (Nat.le_of_eq hab) (Nat.le_of_eq hc.symm)
  have hframe : ∀ p, (∀ j, j < b.cols → p ≠ i * c.cols + j) → c'.data[p]? = c.data[p]? := by
    intro p hp
    have hlen : c'.data.length = c.data.length := by
      rw [c'.size_eq, c.size_eq, hd.1, hd.2]
    by_cases hpl : p < c.data.length
    · have hpl' : p < c'.data.length := by rw [hlen]; exact hpl
      have hC : 0 < c.cols := by
        rcases Nat.eq_zero_or_pos c.cols with h0 | h0
        · rw [c.size_eq, h0] at hpl; simp at hpl
        · exact h0
      rw [matrix.getElem?_eq_elem c' hpl', matrix.getElem?_eq_elem c hpl, hd.2,
        he _ _ (Nat.mod_lt p hC)]
      have hne : ¬ (p / c.cols = i ∧ p % c.cols < b.cols) := by
        intro ⟨h1, h2⟩
        apply hp (p % c.cols) h2
        rw [← h1]
        exact (Nat.div_add_mod' p c.cols).symm
      simp [hne]
    · have h1 : c.data.length ≤ p := Nat.le_of_not_lt hpl
      rw [List.getElem?_eq_none h1, List.getElem?_eq_none (by rw [hlen]; exact h1)]
  refine ⟨c', hc', hd.1, hd.2, hframe, ?_, ?_, ?_⟩
  · intro i' j hne hjc
    rw [he i' j hjc]
    simp [hne]
  · intro d hdr hdc hrow
    obtain ⟨d', hd', hdd, hed⟩ := parallelRowBody_spec a b d i hi (by rw [hdr]; exact hic)
      (Nat.le_of_eq hab) (by rw [hdc]; exact Nat.le_of_eq hc.symm)
    refine ⟨d', hd', fun j hj => ?_⟩
    rw [hed i j (by rw [hdc]; exact hj), he i j hj, hrow j hj]
  · intro i' j j' hne hj hj' heq
    exact hne (index_inj hj hj' heq).1.symm

/-- The hypotheses of C8 hold for the row index `1` of a 2 x 2 product; the body
leaves row `0` of the result matrix as it was. -/
theorem parallelRowBody_owns_its_row_witness :
    1 < (mat22 1 2 3 4).rows ∧
    (mat22 1 2 3 4).cols = (mat22 5 6 7 8).rows ∧ (sevens 2 2).rows = (mat22 1 2 3 4).rows ∧
    (sevens 2 2).cols = (mat22 5 6 7 8).cols ∧
    (parallelRowBody (mat22 1 2 3 4) (mat22 5 6 7 8) 1 (sevens 2 2)).map matrix.data
      = some [7, 7, 50, 57] ∧
    ∃ c', parallelRowBody (mat22 1 2 3 4) (mat22 5 6 7 8) 1 (sevens 2 2) = some c' ∧
      c'.rows = (sevens 2 2).rows ∧ c'.cols = (sevens 2 2).cols ∧
      (∀ p, (∀ j, j < (mat22 5 6 7 8).cols → p ≠ 1 * (sevens 2 2).cols + j) →
        c'.data[p]? = (sevens 2 2).data[p]?) ∧
      (∀ i' j, i' ≠ 1 → j < (sevens 2 2).cols → c'.elem i' j = (sevens 2 2).elem i' j) ∧
      (∀ d : matrix Int, d.rows = (sevens 2 2).rows → d.cols = (sevens 2 2).cols →
        (∀ j, j < (sevens 2 2).cols → d.elem 1 j = (sevens 2 2).elem 1 j) →
        ∃ d', parallelRowBody (mat22 1 2 3 4) (mat22 5 6 7 8) 1 d = some d' ∧
          ∀ j, j < (sevens 2 2).cols → d'.elem 1 j = c'.elem 1 j) ∧
      (∀ i' j j', i' ≠ 1 → j < (sevens 2 2).cols → j' < (sevens 2 2).cols →
        1 * (sevens 2 2).cols + j ≠ i' * (sevens 2 2).cols + j') :=
  ⟨by decide, rfl, rfl, rfl, by decide,
    parallelRowBody_owns_its_row (mat22 1 2 3 4) (mat22 5 6 7 8) (sevens 2 2) 1 (by decide)
      rfl rfl rfl⟩

/-- C9: the vectorized kernel is the cache-reordered kernel with the same
accumulation order. For every choice of the constant `zero` and of the operations
`add` and `mul` on the elements (no law assumed) and for every `a`, `b`, `c`,
`matrixProductSmartVec` and `matrixProductSmartNoVec` return the same outcome: the
same matrix, or both an out-of-range failure. -/
theorem smartVec_eq_smartNoVec (α : Type) (zero : α) (add mul : α → α → α)
    (a b c : matrix α) :
    @matrixProductSmartVec α ⟨zero⟩ ⟨add⟩ ⟨mul⟩ a b c
      = @matrixProductSmartNoVec α ⟨zero⟩ ⟨add⟩ ⟨mul⟩ a b c := rfl


/-- C10, as stated, fails. With `a` of size 1 x 1, `b` of size 0 x 0 and `c` of size
1 x 0 the naive kernel returns a result while the three reordered kernels fail with an
out-of-range access to row 0 of `b`. And with `a` of `2^31` rows and no column, `b` of
size 0 x 0 and `c` of `2^31` rows and no column no access fails, but the parallel kernel
overflows its `int` row counter where the other three leave `c`. -/
theorem dimension_mismatch_not_uniform :
    (matrixProductNaive (⟨1, 1, [1], rfl⟩ : matrix Int) ⟨0, 0, [], rfl⟩
      ⟨1, 0, [], rfl⟩).isSome = true ∧
    (matrixProductSmartNoVec (⟨1, 1, [1], rfl⟩ : matrix Int) ⟨0, 0, [], rfl⟩
      ⟨1, 0, [], rfl⟩).isNone = true ∧
    (matrixProductSmartVec (⟨1, 1, [1], rfl⟩ : matrix Int) ⟨0, 0, [], rfl⟩
      ⟨1, 0, [], rfl⟩).isNone = true ∧
    matrixProductSmartParallel 64 2 (⟨1, 1, [1], rfl⟩ : matrix Int) ⟨0, 0, [], rfl⟩
      ⟨1, 0, [], rfl⟩ = IntLoopResult.bodyFailed ∧
    matrixProductSmartNoVec (emptyCols 2147483648) (emptyCols 0) (emptyCols 2147483648)
      = some (emptyCols 2147483648) ∧
    matrixProductSmartParallel 64 2147483649 (emptyCols 2147483648) (emptyCols 0)
      (emptyCols 2147483648) = IntLoopResult.overflow :=
  ⟨by decide, by decide, by decide, by decide, outcomes_at_two_pow_31_rows.2.1,
    outcomes_at_two_pow_31_rows.2.2.2.1⟩

/-- C10, amended: for every `a`, `b` and `c` whatsoever over a commutative semiring,
the cache-reordered and the vectorized kernel have the same outcome (both fail or both
leave the same matrix), and so has the parallel kernel when `a` has at most `2^31 - 1`
rows (`size_t` of at least 32 bits, enough fuel); whenever the reordered kernels do not
fail, the naive kernel does not fail either and leaves the same matrix; and when `b`
has at least one column the naive kernel has the same outcome as the reordered
kernels. -/
theorem dimension_mismatch_handling {α : Type} [CommSemiring α] (a b c : matrix α) :
    matrixProductSmartVec a b c = matrixProductSmartNoVec a b c ∧
    (∀ w fuel, 32 ≤ w → a.rows ≤ 2 ^ 31 - 1 → a.rows < fuel →
      matrixProductSmartParallel w fuel a b c
        = asIntLoopResult a.rows (matrixProductSmartNoVec a b c)) ∧
    (∀ r, matrixProductSmartNoVec a b c = some r → matrixProductNaive a b c = some r) ∧
    (0 < b.cols → matrixProductNaive a b c = matrixProductSmartNoVec a b c) := by
  refine ⟨rfl, fun w fuel hw hrows hfuel => parallel_eq_smartVec w fuel a b c hw hrows hfuel,
    ?_, ?_⟩
  · intro r hr
    by_cases hs : SmartSafe a b c
    · obtain ⟨r', h1, h2, _⟩ := kernels_agree_of_safe a b c hs
      rw [h2] at hr
      rw [h1, hr]
    · rw [matrixProductSmartNoVec_eq, smart_fail a b c hs] at hr
      cases hr
  · intro hM
    by_cases hs : SmartSafe a b c
    · obtain ⟨r', h1, h2, _⟩ := kernels_agree_of_safe a b c hs
      rw [h1, h2]
    · have hn : ¬ NaiveSafe a b c := by
        intro hn
        apply hs
        rcases hn with h0 | ⟨g1, g2, g3⟩
        · exact Or.inl h0
        · rcases g3 with g3 | g3
          · rw [g3] at hM; exact absurd hM (Nat.lt_irrefl 0)
          · exact Or.inr ⟨g1, g2, g3⟩
      rw [naive_fail a b c hn, matrixProductSmartNoVec_eq, smart_fail a b c hs]

/-- The hypotheses inside the amended C10 hold at concrete inputs: on 2 x 2 operands
the reordered kernel succeeds and so do the naive and the parallel one, with the same
matrix; and for `a` of size 1 x 2 and `b` of size 1 x 1, a mismatch with a column in
`b`, the naive, the reordered and the parallel kernel have the same outcome, a
failure. -/
theorem dimension_mismatch_handling_witness :
    matrixProductSmartNoVec (mat22 1 2 3 4) (mat22 5 6 7 8) (sevens 2 2)
      = some (mat22 19 22 43 50) ∧
    matrixProductNaive (mat22 1 2 3 4) (mat22 5 6 7 8) (sevens 2 2)
      = some (mat22 19 22 43 50) ∧
    32 ≤ 64 ∧ (⟨1, 2, [1, 2], rfl⟩ : matrix Int).rows ≤ 2 ^ 31 - 1 ∧
    (⟨1, 2, [1, 2], rfl⟩ : matrix Int).rows < 2 ∧
    matrixProductSmartParallel 64 2 (⟨1, 2, [1, 2], rfl⟩ : matrix Int) ⟨1, 1, [5], rfl⟩
      ⟨1, 1, [7], rfl⟩
      = asIntLoopResult (⟨1, 2, [1, 2], rfl⟩ : matrix Int).rows
        (matrixProductSmartNoVec (⟨1, 2, [1, 2], rfl⟩ : matrix Int) ⟨1, 1, [5], rfl⟩
          ⟨1, 1, [7], rfl⟩) ∧
    0 < (⟨1, 1, [5], rfl⟩ : matrix Int).cols ∧
    matrixProductNaive (⟨1, 2, [1, 2], rfl⟩ : matrix Int) ⟨1, 1, [5], rfl⟩ ⟨1, 1, [7], rfl⟩
      = matrixProductSmartNoVec (⟨1, 2, [1, 2], rfl⟩ : matrix Int) ⟨1, 1, [5], rfl⟩
        ⟨1, 1, [7], rfl⟩ ∧
    matrixProductSmartNoVec (⟨1, 2, [1, 2], rfl⟩ : matrix Int) ⟨1, 1, [5], rfl⟩
      ⟨1, 1, [7], rfl⟩ = none :=
  ⟨by decide,
    (dimension_mismatch_handling (mat22 1 2 3 4) (mat22 5 6 7 8) (sevens 2 2)).2.2.1
      (mat22 19 22 43 50) (by decide),
    by decide, by decide, by decide,
    (dimension_mismatch_handling (⟨1, 2, [1, 2], rfl⟩ : matrix Int) ⟨1, 1, [5], rfl⟩
      ⟨1, 1, [7], rfl⟩).2.1 64 2 (by decide) (by decide) (by decide),
    by decide,
    (dimension_mismatch_handling (⟨1, 2, [1, 2], rfl⟩ : matrix Int) ⟨1, 1, [5], rfl⟩
      ⟨1, 1, [7], rfl⟩).2.2.2 (by decide),
    by decide⟩

/-! ## The scenario, the addressing and the oversized result matrix -/

/-- C11: concrete scenario. With `a = [[1,2],[3,4]]`, `b = [[5,6],[7,8]]` and any
2 x 2 integer matrix `c`, each of `matrixProductNaive`, `matrixProductSmartNoVec`,
`matrixProductSmartVec` and `matrixProductSmartParallel` (with its `int` counters, a
`size_t` of at least 32 bits and the fuel for its two rows) returns
`[[19,22],[43,50]]`. -/
theorem scenario_two_by_two (c : matrix Int) (hr : c.rows = 2) (hc : c.cols = 2) :
    matrixProductNaive (mat22 1 2 3 4) (mat22 5 6 7 8) c = some (mat22 19 22 43 50) ∧
    matrixProductSmartNoVec (mat22 1 2 3 4) (mat22 5 6 7 8) c = some (mat22 19 22 43 50) ∧
    matrixProductSmartVec (mat22 1 2 3 4) (mat22 5 6 7 8) c = some (mat22 19 22 43 50) ∧
    ∀ w fuel, 32 ≤ w → 2 < fuel →
      matrixProductSmartParallel w fuel (mat22 1 2 3 4) (mat22 5 6 7 8) c
        = IntLoopResult.finished 2 (mat22 19 22 43 50) := by
  obtain ⟨r, h1, h2, h3, hB⟩ := kernels_agree_of_safe (mat22 1 2 3 4) (mat22 5 6 7 8) c
    (smartSafe_of_dims rfl hr hc)
  obtain ⟨r0, g1, _, _, hB0⟩ := kernels_agree_of_safe (mat22 1 2 3 4) (mat22 5 6 7 8)
    (sevens 2 2) (smartSafe_of_dims rfl rfl rfl)
  have hval : matrixProductNaive (mat22 1 2 3 4) (mat22 5 6 7 8) (sevens 2 2)
      = some (mat22 19 22 43 50) := by decide
  have hr0 : r0 = mat22 19 22 43 50 := Option.some.inj (g1.symm.trans hval)
  have : r = r0 := BlockIs_unique hB
    (@BlockIs_full Int _ (sevens 2 2) c r0 _ _ _ rfl rfl hr hc hB0)
  rw [this, hr0] at h1 h2 h3
  refine ⟨h1, h2, h3, fun w fuel hw hfuel => ?_⟩
  have hrows : (mat22 1 2 3 4).rows ≤ 2 ^ 31 - 1 := by
    show 2 ≤ 2 ^ 31 - 1
    norm_num
  rw [parallel_eq_smartVec w fuel (mat22 1 2 3 4) (mat22 5 6 7 8) c hw hrows hfuel, h3]
  rfl

/-- The hypotheses of C11 hold for the 2 x 2 all-ones matrix as the initial `c`, a
64-bit `size_t` and the fuel `3`. -/
theorem scenario_two_by_two_witness :
    (ones 2 2).rows = 2 ∧ (ones 2 2).cols = 2 ∧ 32 ≤ 64 ∧ 2 < 3 ∧
    matrixProductNaive (mat22 1 2 3 4) (mat22 5 6 7 8) (ones 2 2)
      = some (mat22 19 22 43 50) ∧
    matrixProductSmartNoVec (mat22 1 2 3 4) (mat22 5 6 7 8) (ones 2 2)
      = some (mat22 19 22 43 50) ∧
    matrixProductSmartVec (mat22 1 2 3 4) (mat22 5 6 7 8) (ones 2 2)
      = some (mat22 19 22 43 50) ∧
    matrixProductSmartParallel 64 3 (mat22 1 2 3 4) (mat22 5 6 7 8) (ones 2 2)
      = IntLoopResult.finished 2 (mat22 19 22 43 50) :=
  ⟨rfl, rfl, by decide, by decide, (scenario_two_by_two (ones 2 2) rfl rfl).1,
    (scenario_two_by_two (ones 2 2) rfl rfl).2.1,
    (scenario_two_by_two (ones 2 2) rfl rfl).2.2.1,
    (scenario_two_by_two (ones 2 2) rfl rfl).2.2.2 64 3 (by decide) (by decide)⟩

/-- C12: row-major addressing is sound. For every row count `R` and column count `C`
the map `(i, j) -> i * C + j` sends every valid position into `0 .. R*C - 1`, sends
two valid positions to the same offset only if they are the same position, and
reaches every offset below `R * C` from a valid position; so the `C`-element views of
two distinct rows share no offset, and in a matrix `m` the pointer returned by
`operator[]` for a valid row `i` is the offset of `(i, 0)` and every element of the
view lies inside the storage. -/
theorem row_major_addressing_sound (R C i j i' j' : Nat) (hi : i < R) (hj : j < C)
    (hi' : i' < R) (hj' : j' < C) :
    offset C i j < R * C ∧ offset C i' j' < R * C ∧
    (offset C i j = offset C i' j' ↔ i = i' ∧ j = j') ∧
    (i ≠ i' → ∀ x y, x < C → y < C → offset C i x ≠ offset C i' y) ∧
    (∀ p, p < R * C → ∃ u v, u < R ∧ v < C ∧ offset C u v = p) ∧
    (∀ (α : Type) (m : matrix α), m.rows = R → m.cols = C →
      m.row i = some (offset C i 0) ∧ offset C i 0 + j = offset C i j ∧
      offset C i j < m.data.length) := by
  refine ⟨index_lt hi hj, index_lt hi' hj', ⟨fun h => index_inj hj hj' h, fun h => by rw [h.1, h.2]⟩,
    fun hne x y hx hy h => hne (index_inj hx hy h).1, fun p hp => ?_, fun α m hR hC => ?_⟩
  · have hC0 : 0 < C := Nat.lt_of_le_of_lt (Nat.zero_le j) hj
    exact ⟨p / C, p % C, Nat.div_lt_of_lt_mul (by rw [Nat.mul_comm]; exact hp),
      Nat.mod_lt p hC0, Nat.div_add_mod' p C⟩
  · refine ⟨?_, by simp [offset], ?_⟩
    · rw [matrix.row_of_lt m (by rw [hR]; exact hi), hC]
      simp [offset]
    · rw [m.size_eq, hR, hC]
      exact index_lt hi hj

/-- The hypotheses of C12 hold for the positions `(1, 2)` and `(0, 1)` of a 2 x 3
matrix. -/
theorem row_major_addressing_sound_witness :
    1 < 2 ∧ 2 < 3 ∧ 0 < 2 ∧ 1 < 3 ∧
    offset 3 1 2 < 2 * 3 ∧ offset 3 0 1 < 2 * 3 ∧
    (offset 3 1 2 = offset 3 0 1 ↔ 1 = 0 ∧ 2 = 1) ∧
    (1 ≠ 0 → ∀ x y, x < 3 → y < 3 → offset 3 1 x ≠ offset 3 0 y) ∧
    (∀ p, p < 2 * 3 → ∃ u v, u < 2 ∧ v < 3 ∧ offset 3 u v = p) ∧
    (∀ (α : Type) (m : matrix α), m.rows = 2 → m.cols = 3 →
      m.row 1 = some (offset 3 1 0) ∧ offset 3 1 0 + 2 = offset 3 1 2 ∧
      offset 3 1 2 < m.data.length) :=
  ⟨by decide, by decide, by decide, by decide,
    row_major_addressing_sound 2 3 1 2 0 1 (by decide) (by decide) (by decide) (by decide)⟩

/-- C13, as stated, fails: there is no arithmetic (no constant `zero` and operations
`add` and `mul`, associative or not) and no input `a` (R x N), `b` (N x M), `c`
(R x M) on which `matrixProductSmartNoVec` and `matrixProductNaive` have different
outcomes. -/
theorem no_arithmetic_separates_smartNoVec_from_naive :
    ¬ ∃ (α : Type) (zero : α) (add mul : α → α → α) (a b c : matrix α),
      a.cols = b.rows ∧ c.rows = a.rows ∧ c.cols = b.cols ∧
      @matrixProductSmartNoVec α ⟨zero⟩ ⟨add⟩ ⟨mul⟩ a b c
        ≠ @matrixProductNaive α ⟨zero⟩ ⟨add⟩ ⟨mul⟩ a b c := by
  intro ⟨α, zero, add, mul, a, b, c, hab, hr, hc, hne⟩
  obtain ⟨r, h1, h2, _⟩ := @kernels_agree_of_safe α ⟨zero⟩ ⟨add⟩ ⟨mul⟩ a b c
    (smartSafe_of_dims hab hr hc)
  exact hne (h2.trans h1.symm)

/-- C13, amended: the cache-reordered kernel applies to every element the same
sequence of operations as the naive kernel. For every arithmetic (no law assumed of
`0`, `+` and `*`) and every `a` (R x N), `b` (N x M), `c` (R x M),
`matrixProductSmartNoVec` and `matrixProductNaive` succeed with the same matrix, whose
element `(i, j)` is `((0 + a[i][0]*b[0][j]) + a[i][1]*b[1][j]) + ...`, the products
being added on the right one by one in increasing `k`. -/
theorem smartNoVec_same_accumulation_order {α : Type} [Zero α] [Add α] [Mul α]
    (a b c : matrix α) (hab : a.cols = b.rows) (hr : c.rows = a.rows) (hc : c.cols = b.cols) :
    ∃ r, matrixProductSmartNoVec a b c = some r ∧ matrixProductNaive a b c = some r ∧
      ∀ i j, i < a.rows → j < b.cols →
        r.elem i j = (List.range a.cols).foldl (fun acc k => acc + a.elem i k * b.elem k j) 0 := by
  obtain ⟨r, h1, h2, _, _, _, he⟩ :=
    kernels_agree_of_safe a b c (smartSafe_of_dims hab hr hc)
  refine ⟨r, h2, h1, fun i j hi hj => ?_⟩
  rw [he i j (by rw [hc]; exact hj)]
  simp only [hi, hj, and_self, if_true]
  rfl

/-- The hypotheses of the amended C13 hold for 2 x 2 integer matrices under the
addition `x, y -> 2 * x + y`, which is not associative; both kernels leave
`[[24, 28], [58, 68]]`. -/
theorem smartNoVec_same_accumulation_order_witness :
    (mat22 1 2 3 4).cols = (mat22 5 6 7 8).rows ∧ (sevens 2 2).rows = (mat22 1 2 3 4).rows ∧
    (sevens 2 2).cols = (mat22 5 6 7 8).cols ∧
    (2 * (2 * 1 + 2) + 3 : Int) ≠ 2 * 1 + (2 * 2 + 3) ∧
    (@matrixProductSmartNoVec Int ⟨0⟩ ⟨fun x y => 2 * x + y⟩ ⟨fun x y => x * y⟩
      (mat22 1 2 3 4) (mat22 5 6 7 8) (sevens 2 2)).map matrix.data = some [24, 28, 58, 68] ∧
    ∃ r, @matrixProductSmartNoVec Int ⟨0⟩ ⟨fun x y => 2 * x + y⟩ ⟨fun x y => x * y⟩
        (mat22 1 2 3 4) (mat22 5 6 7 8) (sevens 2 2) = some r ∧
      @matrixProductNaive Int ⟨0⟩ ⟨fun x y => 2 * x + y⟩ ⟨fun x y => x * y⟩
        (mat22 1 2 3 4) (mat22 5 6 7 8) (sevens 2 2) = some r ∧
      ∀ i j, i < (mat22 1 2 3 4).rows → j < (mat22 5 6 7 8).cols →
        @matrix.elem Int ⟨0⟩ r i j = (List.range (mat22 1 2 3 4).cols).foldl
          (fun acc k => 2 * acc + @matrix.elem Int ⟨0⟩ (mat22 1 2 3 4) i k
            * @matrix.elem Int ⟨0⟩ (mat22 5 6 7 8) k j) 0 :=
  ⟨rfl, rfl, rfl, by decide, by decide,
    @smartNoVec_same_accumulation_order Int ⟨0⟩ ⟨fun x y => 2 * x + y⟩ ⟨fun x y => x * y⟩
      (mat22 1 2 3 4) (mat22 5 6 7 8) (sevens 2 2) rfl rfl rfl⟩

/-! ## The operand values -/

/-- C14, as stated, fails: `rand()` may return `RAND_MAX` itself (here 32767), and
the stored value is then `1`, which is not below `1`. -/
theorem fillValue_reaches_one :
    0 < 32767 ∧ 32767 ≤ 32767 ∧ fillValue 32767 32767 = 1 ∧ ¬ fillValue 32767 32767 < 1 := by
  have h : fillValue 32767 32767 = 1 := by
    unfold fillValue
    norm_num
  refine ⟨by decide, Nat.le_refl _, h, ?_⟩
  rw [h]
  exact lt_irrefl 1

/-- C14, amended: every operand value the harness writes lies in the closed interval
`[0, 1]`. For every value `r` that `rand()` may return (`r <= RAND_MAX`, with
`RAND_MAX > 0`) the stored value `r / RAND_MAX`, taken as an exact rational, satisfies
`0 <= r / RAND_MAX <= 1`, and it is below `1` exactly when `r < RAND_MAX`. -/
theorem fillValue_in_closed_unit_interval (randMax r : Nat) (hmax : 0 < randMax)
    (hr : r ≤ randMax) :
    0 ≤ fillValue randMax r ∧ fillValue randMax r ≤ 1 ∧
      (fillValue randMax r < 1 ↔ r < randMax) := by
  have hpos : (0 : ℚ) < (randMax : ℚ) := by exact_mod_cast hmax
  have hle : (r : ℚ) ≤ (randMax : ℚ) := by exact_mod_cast hr
  unfold fillValue
  refine ⟨div_nonneg (Nat.cast_nonneg r) (le_of_lt hpos), (div_le_one hpos).mpr hle, ?_⟩
  rw [div_lt_one hpos]
  exact Nat.cast_lt

/-- The hypotheses of the amended C14 hold for `RAND_MAX = 32767` and the value
`12345` of `rand()`. -/
theorem fillValue_in_closed_unit_interval_witness :
    0 < 32767 ∧ 12345 ≤ 32767 ∧
    0 ≤ fillValue 32767 12345 ∧ fillValue 32767 12345 ≤ 1 ∧
      (fillValue 32767 12345 < 1 ↔ 12345 < 32767) :=
  ⟨by decide, by decide, fillValue_in_closed_unit_interval 32767 12345 (by decide) (by decide)⟩

/-! ## The `int` row counter and the `size_t` counters -/

/-- C15: the parallel kernel counts rows with a 32-bit signed `int` compared against
the `size_t` row count. For every row count `rows <= 2^31 - 1` (and a `size_t` of at
least 32 bits), given enough fuel, a loop with the `int` counter neither runs out of
fuel nor overflows the counter: for every body it has the outcome of the loop with
the `size_t` counter of `matrixProductSmartVec`, with the counter ending at `rows`;
it hands the body the indices `0, 1, ..., rows - 1`, each once and in this order; and
the parallel kernel with its two `int` counters has the outcome of
`matrixProductSmartVec` with its `size_t` counters. -/
theorem int_row_counter_sound (w rows fuel : Nat) (hw : 32 ≤ w) (hrows : rows ≤ 2 ^ 31 - 1)
    (hfuel : rows < fuel) :
    (∀ (σ : Type) (body : Nat → σ → Option σ) (s : σ),
      intLoopFrom w rows body fuel 0 s = asIntLoopResult rows (forLoop rows body s)) ∧
    intLoopFrom w rows (fun i (l : List Nat) => some (l ++ [i])) fuel 0 []
      = IntLoopResult.finished (rows : Int) (List.range rows) ∧
    (rows : Int) ≤ 2 ^ 31 - 1 ∧
    (∀ (α : Type) [Zero α] [Add α] [Mul α] (a b c : matrix α), a.rows = rows →
      matrixProductSmartParallel w fuel a b c
        = asIntLoopResult rows (matrixProductSmartVec a b c)) := by
  refine ⟨fun σ body s => intLoopFrom_eq_forLoop w rows fuel hw hrows hfuel body s, ?_, ?_, ?_⟩
  · rw [intLoopFrom_eq_forLoop w rows fuel hw hrows hfuel, forLoop_records_range]
    rfl
  · have h3 : ((2 ^ 31 - 1 : Nat) : Int) = 2 ^ 31 - 1 := by norm_num
    rw [← h3]
    exact_mod_cast hrows
  · intro α _ _ _ a b c ha
    rw [← ha]
    exact parallel_eq_smartVec w fuel a b c hw (by rw [ha]; exact hrows)
      (by rw [ha]; exact hfuel)

/-- The hypotheses of C15 hold for a 64-bit `size_t`, two rows and the fuel `3`; the
`int` loop then hands the body the indices `0` and `1`. -/
theorem int_row_counter_sound_witness :
    32 ≤ 64 ∧ 2 ≤ 2 ^ 31 - 1 ∧ 2 < 3 ∧
    intLoopFrom 64 2 (fun i (l : List Nat) => some (l ++ [i])) 3 0 []
      = IntLoopResult.finished 2 [0, 1] ∧
    matrixProductSmartParallel 64 3 (mat22 1 2 3 4) (mat22 5 6 7 8) (sevens 2 2)
      = IntLoopResult.finished 2 (mat22 19 22 43 50) ∧
    ((∀ (σ : Type) (body : Nat → σ → Option σ) (s : σ),
      intLoopFrom 64 2 body 3 0 s = asIntLoopResult 2 (forLoop 2 body s)) ∧
    intLoopFrom 64 2 (fun i (l : List Nat) => some (l ++ [i])) 3 0 []
      = IntLoopResult.finished ((2 : Nat) : Int) (List.range 2) ∧
    ((2 : Nat) : Int) ≤ 2 ^ 31 - 1 ∧
    (∀ (α : Type) [Zero α] [Add α] [Mul α] (a b c : matrix α), a.rows = 2 →
      matrixProductSmartParallel 64 3 a b c
        = asIntLoopResult 2 (matrixProductSmartVec a b c))) :=
  ⟨by decide, by decide, by decide, by decide, by decide,
    int_row_counter_sound 64 2 3 (by decide) (by decide) (by decide)⟩

end MatrixProduct
